import Mathlib

/-!
Shallow embedding of the resolution theorem-proving engine
(package `resolution`, file modelled from `src/unnamed/part_003`).

Modelling conventions:
* Go strings are modelled as Lean `String`; all character-level work
  (scanning, splitting, ordering) is done on `String.data : List Char`.
  Go compares strings byte-wise over UTF-8, which coincides with
  code-point-wise comparison, so `charListLt` over `List Char` is faithful.
* Go slices `[]T` become `List T`; the two-element parent array
  `[2]*Clause`, which the engine only ever fills with either two nil
  pointers (initial clauses) or two non-nil pointers (resolvents),
  becomes the inductive `Parents` with constructors `none` and `pair`.
* Go maps used as sets (`processedPairs`, `seen`, `visited`) become lists
  with membership tests; maps `Theta` become association lists whose keys
  stay distinct because the code only inserts after a failed lookup.
* `sort.Slice`/`sort.Strings` become a structural insertion sort; the key
  lists being sorted here have pairwise-distinct keys (after the string
  dedup) or duplicate keys that are whole-element duplicates (strings),
  so every correct sort produces the same list as Go's unstable sort.
* The Go functions `unify`/`unifyVar`/`unifyLists` recurse through the
  bindings stored in theta and do not terminate on all inputs (cyclic
  binding pairs such as those produced by unifying g(x, y, x) with
  g(f(y), f(x), y) make them loop), so they take an explicit recursion
  depth `fuel`; engine-level theorems are proved for every depth.
* The saturation loop `for {}` in `Prove` takes an explicit pass budget;
  `max_iterations + 2` passes are provably enough (each continuing pass
  strictly increases the check counter which is capped by the budget),
  so the extra `fuelOut` outcome is unreachable from `Prove`.
* The field `alloc` of `SatState` is instrumentation only: it records
  every clause in allocation (`getNextID`) order and never influences
  control flow.
-/

namespace Resolution

/-- Go interface `Term` with its three implementations
`Variable`, `Constant`, `Function` (part_003 lines 17-77). -/
inductive Term where
  | var (name : String)
  | const (name : String)
  | fn (name : String) (args : List Term)

/-- `Name()` of a term. -/
def Term.name : Term → String
  | .var n => n
  | .const n => n
  | .fn n _ => n

/-- `IsVariable()` of a term. -/
def Term.isVariable : Term → Bool
  | .var _ => true
  | _ => false

mutual
/-- `String()` of a term: variables and constants print their name,
`f(a, b)` for functions (part_003 lines 32, 45, 61-67). -/
def Term.str : Term → String
  | .var n => n
  | .const n => n
  | .fn n args => n ++ ("(") ++ strArgs args ++ (")")
/-- `strings.Join(parts, ", ")` over the printed arguments. -/
def strArgs : List Term → String
  | [] => ""
  | [t] => Term.str t
  | t :: ts => Term.str t ++ (", ") ++ strArgs ts
end

mutual
/-- `ContainsVar`: occurs check, recursing through function arguments
(part_003 lines 33-35, 46-48, 70-77). -/
def Term.containsVar (vn : String) : Term → Bool
  | .var n => n == vn
  | .const _ => false
  | .fn _ args => termsContainVar vn args
/-- The loop over a function's arguments in `Function.ContainsVar`. -/
def termsContainVar (vn : String) : List Term → Bool
  | [] => false
  | t :: ts => Term.containsVar vn t || termsContainVar vn ts
end

/-- Go struct `Literal` (part_003 lines 83-87). -/
structure Literal where
  predicate : String
  args : List Term
  negated : Bool

/-- `Literal.String()`: `¬?P(a₁, ..., aₙ)` (part_003 lines 93-103). -/
def Literal.str (l : Literal) : String :=
  (if l.negated then ("¬") else ("")) ++ l.predicate ++ ("(") ++ strArgs l.args ++ (")")

/-- `Literal.Negate()` (part_003 lines 105-107). -/
def Literal.negate (l : Literal) : Literal :=
  ⟨l.predicate, l.args, !l.negated⟩

/-- Pointwise string equality of argument lists
(the loop in `Literal.Equal`). -/
def argsEqualStr : List Term → List Term → Bool
  | [], [] => true
  | [], _ :: _ => false
  | _ :: _, [] => false
  | a :: as, b :: bs => a.str == b.str && argsEqualStr as bs

/-- `Literal.Equal` (part_003 lines 110-123). -/
def Literal.equal (a b : Literal) : Bool :=
  a.predicate == b.predicate && a.negated == b.negated &&
    a.args.length == b.args.length && argsEqualStr a.args b.args

mutual
/-- Go struct `Clause` (part_003 lines 125-131).  `Parents` models the
array `[2]*Clause`: the engine stores either two nil pointers (`none`)
or the two parent clauses of a resolvent (`pair`). -/
inductive Clause where
  | mk (id : Nat) (literals : List Literal) (origin : String)
      (parents : Parents) (rule : String)
inductive Parents where
  | none
  | pair (p1 p2 : Clause)
end

/-- Field `ID`. -/
def Clause.id : Clause → Nat
  | .mk i _ _ _ _ => i

/-- Field `Literals`. -/
def Clause.literals : Clause → List Literal
  | .mk _ ls _ _ _ => ls

/-- Field `Origin`. -/
def Clause.origin : Clause → String
  | .mk _ _ o _ _ => o

/-- Field `Parents`. -/
def Clause.parentsOf : Clause → Parents
  | .mk _ _ _ p _ => p

/-- Field `Rule`. -/
def Clause.rule : Clause → String
  | .mk _ _ _ _ r => r

/-- Lexicographic comparison of code-point lists; agrees with Go's
byte-wise `<` on UTF-8 strings. -/
def charListLt : List Char → List Char → Bool
  | [], [] => false
  | [], _ :: _ => true
  | _ :: _, [] => false
  | c :: cs, d :: ds =>
    if c < d then true
    else if d < c then false
    else charListLt cs ds

/-- Go string comparison `a < b`. -/
def strLt (a b : String) : Bool := charListLt a.data b.data

/-- Insert into a sorted list (helper of the insertion sort). -/
def insertBy (le : α → α → Bool) (x : α) : List α → List α
  | [] => [x]
  | y :: ys => if le x y then x :: y :: ys else y :: insertBy le x ys

/-- Insertion sort; models `sort.Slice`/`sort.Strings`.  All key lists
sorted by the engine have no two distinct elements with equal keys, so
the result coincides with Go's unstable sort. -/
def sortBy (le : α → α → Bool) : List α → List α
  | [] => []
  | x :: xs => insertBy le x (sortBy le xs)

/-- The comparator of `NewClause`'s `sort.Slice`: ascending literal
stringification. -/
def literalLe (a b : Literal) : Bool := !(strLt b.str a.str)

/-- `removeDuplicateLiterals` (part_003 lines 167-178): keep the first
literal for each stringification, in order; `seen` is the string set. -/
def removeDupAux : List Literal → List String → List Literal
  | [], _ => []
  | l :: rest, seen =>
    if seen.contains l.str then removeDupAux rest seen
    else l :: removeDupAux rest (l.str :: seen)

/-- `removeDuplicateLiterals` entry point. -/
def removeDuplicateLiterals (lits : List Literal) : List Literal :=
  removeDupAux lits []

/-- `NewClause` (part_003 lines 133-140): dedup by literal string, then
sort by ascending literal stringification. -/
def NewClause (id : Nat) (literals : List Literal) (origin : String)
    (parents : Parents) (rule : String) : Clause :=
  Clause.mk id (sortBy literalLe (removeDuplicateLiterals literals)) origin parents rule

/-- `strings.Join` (also used for the logs). -/
def strJoin (sep : String) : List String → String
  | [] => ""
  | [s] => s
  | s :: rest => s ++ sep ++ strJoin sep rest

/-- `Clause.String()` (part_003 lines 142-151): `□` when empty, else
literals joined by ` ∨ `. -/
def Clause.str (c : Clause) : String :=
  match c.literals with
  | [] => "□"
  | ls => strJoin (" ∨ ") (ls.map Literal.str)

/-- `Clause.IsEmpty()` (part_003 line 153). -/
def Clause.isEmpty (c : Clause) : Bool := c.literals.isEmpty

/-- The loop of `Clause.Equal` (pointwise `Literal.Equal`). -/
def litsEqual : List Literal → List Literal → Bool
  | [], [] => true
  | [], _ :: _ => false
  | _ :: _, [] => false
  | a :: as, b :: bs => Literal.equal a b && litsEqual as bs

/-- `Clause.Equal` (part_003 lines 155-165). -/
def Clause.equal (a b : Clause) : Bool :=
  a.literals.length == b.literals.length && litsEqual a.literals b.literals

/-- Go `type Theta map[string]Term`, as an association list.  Keys stay
pairwise distinct because `unifyVar` only binds after a failed lookup. -/
abbrev Theta := List (String × Term)

/-- Map lookup `theta[name]`. -/
def thetaLookup : Theta → String → Option Term
  | [], _ => Option.none
  | (k, v) :: rest, n => if k == n then some v else thetaLookup rest n

mutual
/-- `unify` (part_003 lines 197-244), Term-Term branch, with an explicit
recursion depth: the source recurses through the bindings stored in
theta and does not terminate on all inputs, so each nested call burns
one unit of `fuel` and exhaustion yields failure. -/
def unify : Nat → Term → Term → Theta → Option Theta
  | 0, _, _, _ => Option.none
  | fuel + 1, x, y, theta =>
    if x.str == y.str then some theta
    else if x.isVariable then unifyVar fuel x y theta
    else if y.isVariable then unifyVar fuel y x theta
    else
      match x, y with
      | .fn nx ax, .fn ny ay =>
        if nx == ny && ax.length == ay.length then unifyLists fuel ax ay theta
        else Option.none
      | _, _ => Option.none
/-- `unifyVar` (part_003 lines 260-284): follow existing bindings of
either side, then occurs-check, then bind. -/
def unifyVar : Nat → Term → Term → Theta → Option Theta
  | 0, _, _, _ => Option.none
  | fuel + 1, varTerm, x, theta =>
    match thetaLookup theta varTerm.name with
    | some val => unify fuel val x theta
    | Option.none =>
      match (if x.isVariable then thetaLookup theta x.name else Option.none) with
      | some val => unify fuel varTerm val theta
      | Option.none =>
        if x.containsVar varTerm.name then Option.none
        else some ((varTerm.name, x) :: theta)
/-- `unifyLists` (part_003 lines 246-258). -/
def unifyLists : Nat → List Term → List Term → Theta → Option Theta
  | 0, _, _, _ => Option.none
  | _ + 1, [], [], theta => some theta
  | _ + 1, [], _ :: _, _ => Option.none
  | _ + 1, _ :: _, [], _ => Option.none
  | fuel + 1, x :: xs, y :: ys, theta =>
    match unify fuel x y theta with
    | some newTheta => unifyLists fuel xs ys newTheta
    | Option.none => Option.none
end

/-- The Literal-Literal branch of `unify` (part_003 lines 234-241),
entered by `resolvePair` via `unify(l1, l2.Negate(), nil)`. -/
def unifyLit (fuel : Nat) (a b : Literal) (theta : Theta) : Option Theta :=
  if a.predicate == b.predicate && a.args.length == b.args.length then
    unifyLists fuel a.args b.args theta
  else Option.none

/-- A successful theta lookup names an entry of the list. -/
theorem thetaLookup_mem : ∀ {theta : Theta} {n : String} {v : Term},
    thetaLookup theta n = some v → (n, v) ∈ theta := by
  intro theta
  induction theta with
  | nil => intro n v h; simp [thetaLookup] at h
  | cons kv rest ih =>
    intro n v h
    rw [thetaLookup] at h
    by_cases hk : kv.1 == n
    · rw [if_pos hk] at h
      have hk2 : kv.1 = n := eq_of_beq hk
      cases h
      cases kv
      subst hk2
      exact List.mem_cons_self _ _
    · rw [if_neg hk] at h
      exact List.mem_cons_of_mem _ (ih h)

/-- Walking an unvisited bound variable strictly shrinks the set of
theta entries whose key is unvisited (termination measure of
`applyThetaToTermSafe`). -/
theorem filter_theta_dec {theta : Theta} {visited : List String} {n : String} (v : Term)
    (hm : (n, v) ∈ theta) (hv : visited.contains n = false) :
    (theta.filter fun kv => !((n :: visited).contains kv.1)).length <
      (theta.filter fun kv => !(visited.contains kv.1)).length := by
  have h1 : (theta.filter fun kv => !((n :: visited).contains kv.1)) =
      List.filter (fun kv => !((n :: visited).contains kv.1))
        (theta.filter fun kv => !(visited.contains kv.1)) := by
    rw [List.filter_filter]
    apply List.filter_congr
    intro kv _
    cases hc1 : (n :: visited).contains kv.1 <;>
      cases hc2 : visited.contains kv.1 <;> simp_all [List.contains_cons]
  rw [h1]
  have hv2 : n ∉ visited := by simpa using hv
  have hmem2 : (n, v) ∈ theta.filter fun kv => !(visited.contains kv.1) := by
    apply List.mem_filter.mpr
    exact ⟨hm, by simp [hv2]⟩
  calc (List.filter (fun kv => !((n :: visited).contains kv.1))
          (theta.filter fun kv => !(visited.contains kv.1))).length
      < (theta.filter fun kv => !(visited.contains kv.1)).length := by
        apply List.length_filter_lt_length_iff_exists.mpr
        refine ⟨(n, v), hmem2, ?_⟩
        simp [List.contains_cons]

/-- `applyThetaToTermSafe` (part_003 lines 437-464).  The Go code passes
the `visited` map by reference but removes each mark before returning,
so every call leaves the map as it found it and the map is faithfully a
value parameter.  Terminates because each chain step consumes an
unvisited theta entry and each function step shrinks the term. -/
def applyThetaToTermSafe (t : Term) (theta : Theta) (visited : List String) : Term :=
  match t with
  | .var n =>
    if hv : visited.contains n then Term.var n
    else
      match h : thetaLookup theta n with
      | some val => applyThetaToTermSafe val theta (n :: visited)
      | Option.none => Term.var n
  | .const n => Term.const n
  | .fn n args =>
    Term.fn n (args.attach.map fun a => applyThetaToTermSafe a.1 theta visited)
termination_by ((theta.filter fun kv => !(visited.contains kv.1)).length, sizeOf t)
decreasing_by
  · apply Prod.Lex.left
    exact filter_theta_dec val (thetaLookup_mem h) (by simpa using hv)
  · apply Prod.Lex.right
    have := List.sizeOf_lt_of_mem a.2
    simp only [Term.fn.sizeOf_spec]
    omega

/-- `applyThetaToTerm` wrapper (part_003 lines 467-469). -/
def applyThetaToTerm (t : Term) (theta : Theta) : Term :=
  applyThetaToTermSafe t theta []

/-- `substitute` (part_003 lines 428-434): each argument is walked
through theta with a fresh `visited` set. -/
def substitute (lit : Literal) (theta : Theta) : Literal :=
  ⟨lit.predicate, lit.args.map fun arg => applyThetaToTermSafe arg theta [], lit.negated⟩

/-- Sequence a list of optional results; fails when any element fails
(the argument loop of `applyThetaToTermSafe` with exhausted depth). -/
def allSome : List (Option Term) → Option (List Term)
  | [] => some []
  | Option.none :: _ => Option.none
  | some a :: rest =>
    match allSome rest with
    | some l => some (a :: l)
    | Option.none => Option.none

/-- The raw recursion of `applyThetaToTermSafe` with an explicit
recursion depth, `none` meaning the depth ran out.  The termination
theorem for the substitution walk exhibits, for every input, a depth at
which this returns exactly the value of the total model above. -/
def applyThetaFuel : Nat → Term → Theta → List String → Option Term
  | 0, _, _, _ => Option.none
  | f + 1, t, theta, visited =>
    match t with
    | .var n =>
      if visited.contains n then some (Term.var n)
      else
        match thetaLookup theta n with
        | some val => applyThetaFuel f val theta (n :: visited)
        | Option.none => some (Term.var n)
    | .const n => some (Term.const n)
    | .fn n args =>
      match allSome (args.map fun a => applyThetaFuel f a theta visited) with
      | some newArgs => some (Term.fn n newArgs)
      | Option.none => Option.none

/-- The termination measure of the substitution walk: theta entries
whose key is not yet visited. -/
def thetaCount (theta : Theta) (visited : List String) : Nat :=
  (theta.filter fun kv => !(visited.contains kv.1)).length

/-- `unicode.IsSpace` restricted to the whitespace the inputs use. -/
def isSpaceChar (c : Char) : Bool :=
  c == ' ' || c == '\t' || c == '\n' || c == '\r'

/-- `strings.TrimSpace` on rune lists. -/
def trimChars (l : List Char) : List Char :=
  ((l.dropWhile isSpaceChar).reverse.dropWhile isSpaceChar).reverse

/-- `strings.Split(s, sep)` for a one-rune separator. -/
def splitOnChar (sep : Char) : List Char → List (List Char)
  | [] => [[]]
  | c :: rest =>
    match splitOnChar sep rest with
    | [] => [[]]
    | cur :: done => if c == sep then [] :: cur :: done else (c :: cur) :: done

/-- `strings.Index` for a one-rune needle (rune index; the source uses
byte indices, which agree on the ASCII content these scans see). -/
def firstIdxOf (c : Char) : List Char → Option Nat
  | [] => Option.none
  | d :: rest => if d == c then some 0 else (firstIdxOf c rest).map (· + 1)

/-- `strings.LastIndex` for a one-rune needle. -/
def lastIdxOf (c : Char) (l : List Char) : Option Nat :=
  match firstIdxOf c l.reverse with
  | Option.none => Option.none
  | some i => some (l.length - 1 - i)

/-- `isSingleLowerLetter` (part_003 lines 416-422).  The source consults
the full Unicode tables via `unicode.IsLower`/`unicode.IsLetter`; the
model covers the ASCII letters, the only range the inputs exercise. -/
def isSingleLowerLetter : List Char → Bool
  | [c] => c.isLower && c.isAlpha
  | _ => false

/-- The depth-tracking comma scanner inside `parseArgs` (part_003 lines
358-394), returning the raw argument tokens in order.  The Go loop
flushes the accumulated token at each depth-zero comma and once after
the final rune; returning the (possibly empty) raw tokens and letting
the caller trim and drop empties reproduces that exactly. -/
def splitTopAux : List Char → Int → List Char → List (List Char)
  | [], _, cur => [cur.reverse]
  | c :: rest, depth, cur =>
    if c == '(' then splitTopAux rest (depth + 1) (c :: cur)
    else if c == ')' then splitTopAux rest (depth - 1) (c :: cur)
    else if c == ',' && depth == 0 then cur.reverse :: splitTopAux rest depth []
    else splitTopAux rest depth (c :: cur)

/-- The `parseTerm` classification tail: single lowercase letter is a
Variable, anything else a Constant (part_003 lines 408-412). -/
def classifyTerm (s : List Char) : Term :=
  if isSingleLowerLetter s then Term.var (String.mk s) else Term.const (String.mk s)

mutual
/-- `parseTerm` (part_003 lines 397-413), with a recursion-depth
parameter: the mutual recursion with `parseArgs` descends on ever
shorter strings, and `2 * length + 1` units of depth are enough (each
Term level strips the outer parentheses), so the depth-0 fallback is
never reached from the entry points below. -/
def parseTermF : Nat → List Char → Term
  | 0, s0 => Term.const (String.mk (trimChars s0))
  | fuel + 1, s0 =>
    let s := trimChars s0
    match firstIdxOf '(' s with
    | some openIdx =>
      if s.getLast? == some ')' then
        Term.fn (String.mk (s.take openIdx))
          (parseArgsF fuel ((s.take (s.length - 1)).drop (openIdx + 1)))
      else classifyTerm s
    | Option.none => classifyTerm s
/-- `parseArgs` (part_003 lines 358-394): scan for depth-zero commas,
trim each token, drop empty tokens, parse the rest. -/
def parseArgsF : Nat → List Char → List Term
  | 0, _ => []
  | fuel + 1, s =>
    ((splitTopAux s 0 []).map trimChars).filterMap fun t =>
      if t.isEmpty then Option.none else some (parseTermF fuel t)
end

/-- `parseTerm` entry point with sufficient depth. -/
def parseTerm (s : List Char) : Term := parseTermF (2 * s.length + 1) s

/-- `parseArgs` entry point with sufficient depth. -/
def parseArgs (s : List Char) : List Term := parseArgsF (2 * s.length + 2) s

/-- `parseLiteralString` (part_003 lines 340-355): name before the first
`(`, arguments between it and the last `)`; failure is `("", nil)`. -/
def parseLiteralString (s0 : List Char) : String × List Term :=
  let s := trimChars s0
  match firstIdxOf '(' s with
  | Option.none => (("") , [])
  | some openIdx =>
    match lastIdxOf ')' s with
    | Option.none => (("") , [])
    | some closeIdx =>
      if closeIdx ≤ openIdx then (("") , [])
      else (String.mk (s.take openIdx), parseArgs ((s.take closeIdx).drop (openIdx + 1)))

/-- Go struct `ResolutionEngine` (part_003 lines 290-293). -/
structure Engine where
  clauses : List Clause
  clauseCounter : Nat

/-- `NewResolutionEngine` (part_003 lines 295-300). -/
def NewResolutionEngine : Engine := ⟨[], 1⟩

/-- The literal-collection loop of `ParseInput` for one input string
(part_003 lines 314-332): split on `∨`, trim, strip a leading `¬`,
parse, keep pieces whose predicate name is non-empty. -/
def parsePieces (s : String) : List Literal :=
  (splitOnChar '∨' s.data).filterMap fun piece =>
    let lStr := trimChars piece
    let negated := lStr.head? == some '¬'
    let lStr2 := if negated then lStr.tail else lStr
    let na := parseLiteralString lStr2
    if na.1 == ("") then Option.none else some (Literal.mk na.1 na.2 negated)

/-- The clause-building loop of `ParseInput`, threading `getNextID`. -/
def parseInputAux : List String → Nat → List Clause × Nat
  | [], ctr => ([], ctr)
  | s :: rest, ctr =>
    let c := NewClause ctr (parsePieces s) ("init") (Parents.none) ("")
    let rc := parseInputAux rest (ctr + 1)
    (c :: rc.1, rc.2)

/-- `ParseInput` (part_003 lines 308-337): reset the engine, then build
one initial clause per input string with ids from 1. -/
def ParseInput (inputs : List String) : Engine :=
  let rc := parseInputAux inputs 1
  ⟨rc.1, rc.2⟩

/-- `formatTheta` (part_003 lines 515-525): one `value/key` part per
binding, lexicographically sorted, comma-joined; empty map prints
empty.  The sort makes the text independent of map iteration order. -/
def formatTheta (theta : Theta) : String :=
  match theta with
  | [] => ""
  | _ =>
    strJoin (", ")
      (sortBy (fun a b => !(strLt b a)) (theta.map fun kv => kv.2.str ++ ("/") ++ kv.1))

/-- The rule text of a resolvent: `Унификация ` plus the formatted
substitution, or `(пустая)` when it is empty (part_003 lines 495-506). -/
def ruleText (theta : Theta) : String :=
  let u := formatTheta theta
  ("Унификация ") ++ (if u == ("") then ("(пустая)") else u)

/-- The remaining literals of a clause after removing index `skip`,
each rewritten by the substitution (part_003 lines 482-493). -/
def otherLits (c : Clause) (skip : Nat) (theta : Theta) : List Literal :=
  c.literals.enum.filterMap fun il =>
    if il.1 == skip then Option.none else some (substitute il.2 theta)

/-- Inner loop of `resolvePair` over the literals of `c2`, threading the
id counter (`getNextID`). -/
def resolveInner (uf : Nat) (c1 c2 : Clause) (i : Nat) (l1 : Literal) :
    List (Nat × Literal) → Nat → List Clause × Nat
  | [], ctr => ([], ctr)
  | jl :: rest, ctr =>
    if l1.predicate == jl.2.predicate && l1.negated != jl.2.negated then
      match unifyLit uf l1 (jl.2.negate) [] with
      | some theta =>
        let r := NewClause ctr (otherLits c1 i theta ++ otherLits c2 jl.1 theta)
          ("res") (Parents.pair c1 c2) (ruleText theta)
        let rc := resolveInner uf c1 c2 i l1 rest (ctr + 1)
        (r :: rc.1, rc.2)
      | Option.none => resolveInner uf c1 c2 i l1 rest ctr
    else resolveInner uf c1 c2 i l1 rest ctr

/-- Outer loop of `resolvePair` over the literals of `c1`. -/
def resolveOuter (uf : Nat) (c1 c2 : Clause) :
    List (Nat × Literal) → Nat → List Clause × Nat
  | [], ctr => ([], ctr)
  | il :: rest, ctr =>
    let rc1 := resolveInner uf c1 c2 il.1 il.2 c2.literals.enum ctr
    let rc2 := resolveOuter uf c1 c2 rest rc1.2
    (rc1.1 ++ rc2.1, rc2.2)

/-- `resolvePair` (part_003 lines 471-513): every contrary literal pair
that unifies yields a resolvent carrying a fresh id, origin `res`, the
two parents and the rule text. -/
def resolvePair (uf : Nat) (c1 c2 : Clause) (ctr : Nat) : List Clause × Nat :=
  resolveOuter uf c1 c2 c1.literals.enum ctr

/-- `max_iterations` (part_003 line 10). -/
def max_iterations : Nat := 500000

/-- The mutable state of `Prove` (part_003 lines 589-607): the active
clause list, the processed-pair set, the full-log lines, the step and
check counters, and the engine's clause counter.  `alloc` is
instrumentation only: it records every clause in allocation order and
never influences control flow. -/
structure SatState where
  active : List Clause
  processedPairs : List (Nat × Nat)
  logLines : List String
  stepCount : Nat
  processedChecks : Nat
  counter : Nat
  alloc : List Clause

/-- Result of processing one pair's resolvents. -/
inductive HandleRes where
  | found (c : Clause) (st : SatState)
  | cont (st : SatState) (progress : Bool)

/-- Result of one pass of the inner double loop. -/
inductive PassRes where
  | timeout (st : SatState)
  | found (c : Clause) (st : SatState)
  | complete (st : SatState) (progress : Bool)

/-- How `Prove` finished.  `fuelOut` is a modelling artifact of the
explicit pass budget and is unreachable from `Prove`. -/
inductive Outcome where
  | contradiction (c : Clause) (st : SatState)
  | timeout (st : SatState)
  | saturated (st : SatState)
  | fuelOut (st : SatState)

/-- `fmt.Sprintf("  [%d] %s", c.ID, c.String())`. -/
def clauseLine (c : Clause) : String :=
  ("  [") ++ toString c.id ++ ("] ") ++ c.str

/-- The per-step block of the full log (part_003 lines 651-654). -/
def stepLogText (stepName : String) (c1 c2 r : Clause) : String :=
  ("\n") ++ stepName ++ ("\n    Клауза 1: [") ++ toString c1.id ++ ("] ") ++ c1.str ++
    ("\n    Клауза 2: [") ++ toString c2.id ++ ("] ") ++ c2.str ++
    ("\n    Действие: ") ++ r.rule ++
    ("\n    Результат: [") ++ toString r.id ++ ("] ") ++ r.str

/-- The resolvent loop of `Prove` (part_003 lines 630-665): skip
duplicates of active clauses, append new resolvents with a step log,
and stop at once when an empty resolvent appears. -/
def handleResolvents (c1 c2 : Clause) : List Clause → SatState → Bool → HandleRes
  | [], st, progress => HandleRes.cont st progress
  | r :: rest, st, progress =>
    if st.active.any fun existing => Clause.equal r existing then
      handleResolvents c1 c2 rest st progress
    else
      let stepName := ("Шаг ") ++ toString st.stepCount ++ (" - ") ++
        (if r.isEmpty then ("Противоречие найдено") else ("Резолюция"))
      let st2 : SatState :=
        { st with
            active := st.active ++ [r]
            logLines := st.logLines ++ [stepLogText stepName c1 c2 r]
            stepCount := st.stepCount + 1 }
      if r.isEmpty then
        HandleRes.found r
          { st2 with logLines := st2.logLines ++ [("\nРезультат: Доказано (□).")] }
      else handleResolvents c1 c2 rest st2 true

/-- `pairID`: the unordered id pair, smaller id first (part_003 lines
618-621). -/
def normPair (a b : Nat) : Nat × Nat := if a > b then (b, a) else (a, b)

/-- `processedChecks++` (part_003 line 611). -/
def bumpChecks (st : SatState) : SatState :=
  { st with processedChecks := st.processedChecks + 1 }

/-- `processedPairs[pairID] = true` (part_003 line 626). -/
def markPair (st : SatState) (pid : Nat × Nat) : SatState :=
  { st with processedPairs := st.processedPairs ++ [pid] }

/-- Recording the resolvents of one pair: the engine counter advances
and (instrumentation) the resolvents join the allocation log. -/
def addAlloc (st : SatState) (rs : List Clause) (ctr2 : Nat) : SatState :=
  { st with counter := ctr2, alloc := st.alloc ++ rs }

/-- The inner double loop of `Prove` over the snapshot's ordered pairs
(part_003 lines 609-667): count the check, stop on budget exhaustion,
skip processed pairs, resolve and handle the resolvents. -/
def runPairs (uf : Nat) : List (Clause × Clause) → SatState → Bool → PassRes
  | [], st, progress => PassRes.complete st progress
  | p :: rest, st, progress =>
    let st1 := bumpChecks st
    if st1.processedChecks > max_iterations then PassRes.timeout st1
    else
      let pairID := normPair p.1.id p.2.id
      if st1.processedPairs.contains pairID then runPairs uf rest st1 progress
      else
        let st2 := markPair st1 pairID
        let rc := resolvePair uf p.1 p.2 st2.counter
        let st3 := addAlloc st2 rc.1 rc.2
        match handleResolvents p.1 p.2 rc.1 st3 progress with
        | HandleRes.found c st4 => PassRes.found c st4
        | HandleRes.cont st4 progress2 => runPairs uf rest st4 progress2

/-- The ordered `i < j` pairs of the snapshot, in the loop's order. -/
def listPairs : List Clause → List (Clause × Clause)
  | [] => []
  | c :: rest => (rest.map fun d => (c, d)) ++ listPairs rest

/-- The outer `for {}` loop of `Prove` (part_003 lines 604-673) with an
explicit pass budget; `max_iterations + 2` passes are provably enough
(each continuing pass strictly increases the bounded check counter). -/
def outerLoop (uf : Nat) : Nat → SatState → Outcome
  | 0, st => Outcome.fuelOut st
  | passFuel + 1, st =>
    match runPairs uf (listPairs st.active) st false with
    | PassRes.timeout st2 => Outcome.timeout st2
    | PassRes.found c st2 => Outcome.contradiction c st2
    | PassRes.complete st2 progress =>
      if progress then outerLoop uf passFuel st2
      else
        Outcome.saturated
          { st2 with logLines := st2.logLines ++
              [("\nРезультат: Противоречие не найдено (база непротиворечива).")] }

/-- The state `Prove` starts from: the engine's clauses, the log header,
step counter 1, check counter 0 (part_003 lines 589-602). -/
def initState (e : Engine) : SatState :=
  ⟨e.clauses, [],
    (("=== ПОЛНЫЙ ЛОГ (все резолюции) ===\n") ::
      (("Начальные клаузы: ") ++ toString e.clauses.length) ::
      e.clauses.map clauseLine),
    1, 0, e.clauseCounter, e.clauses⟩

/-- The saturation run of `Prove`, exposing how it finished. -/
def proveOutcome (uf : Nat) (e : Engine) : Outcome :=
  outerLoop uf (max_iterations + 2) (initState e)

/-- The final `SatState` of an outcome. -/
def Outcome.state : Outcome → SatState
  | .contradiction _ st => st
  | .timeout st => st
  | .saturated st => st
  | .fuelOut st => st

mutual
/-- The recursive closure `collect` of `buildProofChain` (part_003 lines
537-555): post-order over the parent DAG, keyed by clause id. -/
def collectC : Clause → (List Nat × List Clause) → (List Nat × List Clause)
  | Clause.mk i lits orig ps rule, st =>
    if st.1.contains i then st
    else
      let st1 := (i :: st.1, st.2)
      let st2 := if orig == ("res") then collectP ps st1 else st1
      (st2.1, st2.2 ++ [Clause.mk i lits orig ps rule])
/-- `collect` on the two parent pointers; a nil pointer contributes
nothing. -/
def collectP : Parents → (List Nat × List Clause) → (List Nat × List Clause)
  | Parents.none, st => st
  | Parents.pair p1 p2, st => collectC p2 (collectC p1 st)
end

/-- `buildProofChain` (part_003 lines 537-555). -/
def buildProofChain (contradiction : Clause) : List Clause :=
  (collectC contradiction ([], [])).2

/-- The numbered step blocks of the short log (part_003 lines 566-584).
The engine only ever calls this on chains whose `res` clauses carry two
parents; on a nil-parent `res` clause the Go code would dereference
nil, so that case is unreachable and contributes nothing here. -/
def formatShortLogSteps : List Clause → Nat → List String
  | [], _ => []
  | c :: rest, stepNum =>
    if c.origin == ("res") then
      match c.parentsOf with
      | Parents.pair p1 p2 =>
        (("\nШаг ") ++ toString stepNum ++ (" - ") ++
          (if c.isEmpty then ("Противоречие найдено") else ("Резолюция")) ++
          ("\n    Клауза 1: [") ++ toString p1.id ++ ("] ") ++ p1.str ++
          ("\n    Клауза 2: [") ++ toString p2.id ++ ("] ") ++ p2.str ++
          ("\n    Действие: ") ++ c.rule ++
          ("\n    Результат: [") ++ toString c.id ++ ("] ") ++ c.str) ::
          formatShortLogSteps rest (stepNum + 1)
      | Parents.none => formatShortLogSteps rest stepNum
    else formatShortLogSteps rest stepNum

/-- `formatShortLog` (part_003 lines 557-587). -/
def formatShortLog (chain : List Clause) : String :=
  strJoin ("\n")
    ((("=== КРАТКИЙ ЛОГ (цепочка доказательства) ===\n") ::
      ("Используемые начальные клаузы:") ::
      ((chain.filter fun c => c.origin == ("init")).map clauseLine)) ++
      (("\nШаги резолюции:") :: formatShortLogSteps chain 1) ++
      [("\nРезультат: резолюция успешна (□).")])

/-- Go struct `ProofResult` (part_003 lines 531-535). -/
structure ProofResult where
  success : Bool
  fullLog : String
  shortLog : String

/-- `Prove` (part_003 lines 589-674).  The `fuelOut` arm renders an
arbitrary failure result; it is unreachable with the pass budget used
by `proveOutcome`. -/
def Prove (uf : Nat) (e : Engine) : ProofResult :=
  match proveOutcome uf e with
  | Outcome.contradiction c st =>
    ⟨true, strJoin ("\n") st.logLines, formatShortLog (buildProofChain c)⟩
  | Outcome.timeout st => ⟨false, strJoin ("\n") st.logLines, ("TIMEOUT")⟩
  | Outcome.saturated st =>
    ⟨false, strJoin ("\n") st.logLines, strJoin ("\n") st.logLines⟩
  | Outcome.fuelOut st => ⟨false, strJoin ("\n") st.logLines, ("")⟩

/-- One whole run as the surrounding application performs it:
`NewResolutionEngine`, `ParseInput`, `Prove`. -/
def runProver (uf : Nat) (inputs : List String) : ProofResult :=
  Prove uf (ParseInput inputs)

mutual
/-- All clauses reachable from a clause through parent pointers
(the clause itself included). -/
def subC : Clause → List Clause
  | Clause.mk i lits orig ps rule => Clause.mk i lits orig ps rule :: subP ps
/-- All clauses reachable from a parent array. -/
def subP : Parents → List Clause
  | Parents.none => []
  | Parents.pair p1 p2 => subC p1 ++ subC p2
end

/-- Well-formedness of a parent DAG as the engine produces it: distinct
reachable clauses never share an id, and parents always have strictly
smaller ids than their child. -/
def WfDag (root : Clause) : Prop :=
  (∀ d ∈ subC root, ∀ e ∈ subC root, d.id = e.id → d = e) ∧
  (∀ d ∈ subC root, ∀ p q : Clause, d.parentsOf = Parents.pair p q →
    p.id < d.id ∧ q.id < d.id)

/-- A clause list is ordered after parents when every member carrying
two parent pointers appears at a strictly later position than each of
its parents. -/
def ChainOrdered (ch : List Clause) : Prop :=
  ∀ (k : Nat) (d : Clause), ch[k]? = some d → d.origin = ("res") → ∀ p q : Clause,
    d.parentsOf = Parents.pair p q →
    (∃ i, i < k ∧ ch[i]? = some p) ∧ (∃ j, j < k ∧ ch[j]? = some q)

/-- A clause whose literal list is the canonical one `NewClause`
produces: strictly ascending in literal stringification (this implies
freedom from string duplicates). -/
def CanonLits (c : Clause) : Prop :=
  List.Pairwise (fun a b : Literal => strLt a.str b.str = true) c.literals

/-- Frame facts of one `collect` call on a visited/chain state: the
chain only grows at the tail, the new entries carry unvisited ids, the
visited set only grows, ids that are visited but unchained afterwards
were already visited and unchained before, chained ids are visited, and
the chain ids stay duplicate-free. -/
def CollectFrame (vis : List Nat) (ch : List Clause)
    (st : List Nat × List Clause) : Prop :=
  (∃ Δ, st.2 = ch ++ Δ ∧ ∀ d ∈ Δ, d.id ∉ vis) ∧
  (∀ i ∈ vis, i ∈ st.1) ∧
  (∀ i ∈ st.1, i ∉ st.2.map Clause.id → i ∈ vis ∧ i ∉ ch.map Clause.id) ∧
  (∀ d ∈ st.2, d.id ∈ st.1) ∧
  (st.2.map Clause.id).Nodup

/-- The frame facts hold for `collect` on a clause, and a clause whose
id is unvisited lands in the chain. -/
def FrameC (c : Clause) : Prop :=
  ∀ (vis : List Nat) (ch : List Clause),
    (∀ d ∈ ch, d.id ∈ vis) → (ch.map Clause.id).Nodup →
    CollectFrame vis ch (collectC c (vis, ch)) ∧
      (c.id ∉ vis → c ∈ (collectC c (vis, ch)).2)

/-- The frame facts hold for `collect` over a parent array. -/
def FrameP (ps : Parents) : Prop :=
  ∀ (vis : List Nat) (ch : List Clause),
    (∀ d ∈ ch, d.id ∈ vis) → (ch.map Clause.id).Nodup →
    CollectFrame vis ch (collectP ps (vis, ch))

/-- Ordering invariant of `collect` on a clause below a well-formed
root: chain membership in the reachable set and parents-before-children
ordering are preserved, provided ids that are visited but not chained
do not occur below the clause being collected. -/
def OrdC (c : Clause) : Prop :=
  ∀ (root : Clause) (vis : List Nat) (ch : List Clause),
    WfDag root → c ∈ subC root →
    (∀ d ∈ ch, d ∈ subC root) →
    (∀ d ∈ ch, d.id ∈ vis) → (ch.map Clause.id).Nodup →
    (∀ i ∈ vis, i ∉ ch.map Clause.id → ∀ d ∈ subC c, i ≠ d.id) →
    ChainOrdered ch →
    (∀ d ∈ (collectC c (vis, ch)).2, d ∈ subC root) ∧
    ChainOrdered (collectC c (vis, ch)).2

/-- Ordering invariant of `collect` over a parent array; after the call
both members of a parent pair are in the chain. -/
def OrdP (ps : Parents) : Prop :=
  ∀ (root : Clause) (vis : List Nat) (ch : List Clause),
    WfDag root →
    (∀ d ∈ subP ps, d ∈ subC root) →
    (∀ d ∈ ch, d ∈ subC root) →
    (∀ d ∈ ch, d.id ∈ vis) → (ch.map Clause.id).Nodup →
    (∀ i ∈ vis, i ∉ ch.map Clause.id → ∀ d ∈ subP ps, i ≠ d.id) →
    ChainOrdered ch →
    (∀ d ∈ (collectP ps (vis, ch)).2, d ∈ subC root) ∧
    ChainOrdered (collectP ps (vis, ch)).2 ∧
    (∀ p q : Clause, ps = Parents.pair p q →
      p ∈ (collectP ps (vis, ch)).2 ∧ q ∈ (collectP ps (vis, ch)).2)

/-!  ## Order lemmas for the character-list comparison  -/

theorem charListLt_irrefl : ∀ l : List Char, charListLt l l = false := by
  intro l
  induction l with
  | nil => rfl
  | cons c cs ih => simp [charListLt, ih]

theorem charListLt_asymm : ∀ a b : List Char,
    charListLt a b = true → charListLt b a = false := by
  intro a
  induction a with
  | nil => intro b h; cases b <;> simp_all [charListLt]
  | cons x xs ih =>
    intro b h
    cases b with
    | nil => simp [charListLt] at h
    | cons y ys =>
      simp only [charListLt] at h ⊢
      by_cases hxy : x < y
      · have hyx : ¬ y < x := lt_asymm hxy
        simp [hxy, hyx]
      · by_cases hyx : y < x
        · simp [hxy, hyx] at h
        · rw [if_neg hxy, if_neg hyx] at h
          rw [if_neg hyx, if_neg hxy]
          exact ih ys h

theorem charListLt_trans : ∀ a b c : List Char,
    charListLt a b = true → charListLt b c = true → charListLt a c = true := by
  intro a
  induction a with
  | nil =>
    intro b c h1 h2
    cases b <;> cases c <;> simp_all [charListLt]
  | cons x xs ih =>
    intro b c h1 h2
    cases b with
    | nil => simp [charListLt] at h1
    | cons y ys =>
      cases c with
      | nil => simp [charListLt] at h2
      | cons z zs =>
        simp only [charListLt] at h1 h2 ⊢
        by_cases hxy : x < y
        · by_cases hyz : y < z
          · simp [lt_trans hxy hyz]
          · by_cases hzy : z < y
            · simp [hyz, hzy] at h2
            · have hyz2 : y = z := le_antisymm (not_lt.mp hzy) (not_lt.mp hyz)
              subst hyz2
              simp [hxy]
        · by_cases hyx : y < x
          · simp [hxy, hyx] at h1
          · have hxy2 : x = y := le_antisymm (not_lt.mp hyx) (not_lt.mp hxy)
            subst hxy2
            rw [if_neg hxy, if_neg hyx] at h1
            by_cases hyz : x < z
            · simp [hyz]
            · by_cases hzy : z < x
              · simp [hyz, hzy] at h2
              · rw [if_neg hyz, if_neg hzy] at h2
                rw [if_neg hyz, if_neg hzy]
                exact ih ys zs h1 h2

theorem charListLt_conn : ∀ a b : List Char,
    charListLt a b = false → charListLt b a = false → a = b := by
  intro a
  induction a with
  | nil => intro b h1 _; cases b <;> simp_all [charListLt]
  | cons x xs ih =>
    intro b h1 h2
    cases b with
    | nil => simp [charListLt] at h2
    | cons y ys =>
      simp only [charListLt] at h1 h2
      by_cases hxy : x < y
      · simp [hxy] at h1
      · by_cases hyx : y < x
        · simp [hxy, hyx] at h2
        · have hxy2 : x = y := le_antisymm (not_lt.mp hyx) (not_lt.mp hxy)
          subst hxy2
          simp only [if_neg hxy, if_neg hyx] at h1 h2
          rw [ih ys h1 h2]

theorem strLt_conn {a b : String} (h1 : strLt a b = false)
    (h2 : strLt b a = false) : a = b := by
  cases a with
  | mk da =>
    cases b with
    | mk db =>
      have hd : da = db := charListLt_conn da db h1 h2
      rw [hd]

/-!  ## Insertion sort lemmas  -/

theorem insertBy_perm (le : α → α → Bool) (x : α) :
    ∀ l : List α, (insertBy le x l).Perm (x :: l) := by
  intro l
  induction l with
  | nil => rfl
  | cons y ys ih =>
    rw [insertBy]
    by_cases h : le x y
    · rw [if_pos h]
    · rw [if_neg h]
      exact List.Perm.trans (List.Perm.cons y ih) (List.Perm.swap x y ys)

theorem sortBy_perm (le : α → α → Bool) :
    ∀ l : List α, (sortBy le l).Perm l := by
  intro l
  induction l with
  | nil => rfl
  | cons x xs ih =>
    rw [sortBy]
    exact ((insertBy_perm le x (sortBy le xs)).trans (List.Perm.cons x ih))

theorem insertBy_pairwise (le : α → α → Bool)
    (htot : ∀ a b, le a b = false → le b a = true)
    (htrans : ∀ a b c, le a b = true → le b c = true → le a c = true)
    (x : α) : ∀ l : List α, List.Pairwise (fun a b => le a b = true) l →
    List.Pairwise (fun a b => le a b = true) (insertBy le x l) := by
  intro l
  induction l with
  | nil => intro _; simp [insertBy]
  | cons y ys ih =>
    intro hp
    rw [List.pairwise_cons] at hp
    rw [insertBy]
    by_cases h : le x y
    · rw [if_pos h]
      refine List.pairwise_cons.mpr ⟨?_, List.pairwise_cons.mpr hp⟩
      intro z hz
      rcases List.mem_cons.mp hz with hz | hz
      · subst hz; exact h
      · exact htrans x y z h (hp.1 z hz)
    · rw [if_neg h]
      refine List.pairwise_cons.mpr ⟨?_, ih hp.2⟩
      intro z hz
      have hz2 := (insertBy_perm le x ys).mem_iff.mp hz
      rcases List.mem_cons.mp hz2 with hz2 | hz2
      · rw [hz2]
        have hxy : le x y = false := by
          revert h
          cases le x y <;> simp
        exact htot x y hxy
      · exact hp.1 z hz2

theorem sortBy_pairwise (le : α → α → Bool)
    (htot : ∀ a b, le a b = false → le b a = true)
    (htrans : ∀ a b c, le a b = true → le b c = true → le a c = true) :
    ∀ l : List α, List.Pairwise (fun a b => le a b = true) (sortBy le l) := by
  intro l
  induction l with
  | nil => simp [sortBy]
  | cons x xs ih => exact insertBy_pairwise le htot htrans x _ ih

theorem literalLe_total : ∀ a b : Literal,
    literalLe a b = false → literalLe b a = true := by
  intro a b h
  rw [literalLe] at h ⊢
  cases hlt : strLt b.str a.str with
  | true => simp [charListLt_asymm _ _ hlt, strLt] at *
  | false => simp [hlt] at h

theorem charListLt_not_trans {a b c : List Char}
    (hba : charListLt b a = false) (hcb : charListLt c b = false) :
    charListLt c a = false := by
  cases hca : charListLt c a with
  | false => rfl
  | true =>
    exfalso
    cases hbc : charListLt b c with
    | true =>
      have := charListLt_trans b c a hbc hca
      rw [this] at hba
      cases hba
    | false =>
      have heq := charListLt_conn b c hbc hcb
      rw [heq, hca] at hba
      cases hba

theorem literalLe_trans : ∀ a b c : Literal,
    literalLe a b = true → literalLe b c = true → literalLe a c = true := by
  intro a b c h1 h2
  rw [literalLe] at h1 h2 ⊢
  cases hba : strLt b.str a.str with
  | true => simp [hba] at h1
  | false =>
    cases hcb : strLt c.str b.str with
    | true => simp [hcb] at h2
    | false =>
      rw [strLt] at hba hcb
      rw [strLt, charListLt_not_trans hba hcb]
      rfl

/-!  ## Dedup lemmas  -/

theorem removeDupAux_spec : ∀ (lits : List Literal) (seen : List String),
    ((removeDupAux lits seen).map Literal.str).Nodup ∧
    ∀ l ∈ removeDupAux lits seen, l.str ∉ seen := by
  intro lits
  induction lits with
  | nil => intro seen; simp [removeDupAux]
  | cons l rest ih =>
    intro seen
    rw [removeDupAux]
    by_cases h : seen.contains l.str
    · rw [if_pos h]
      exact ih seen
    · rw [if_neg h]
      obtain ⟨ih1, ih2⟩ := ih (l.str :: seen)
      refine ⟨?_, ?_⟩
      · rw [List.map_cons, List.nodup_cons]
        refine ⟨?_, ih1⟩
        intro hmem
        obtain ⟨l2, hl2, hstr⟩ := List.mem_map.mp hmem
        have := ih2 l2 hl2
        simp [hstr] at this
      · intro l2 hl2
        rcases List.mem_cons.mp hl2 with hl2 | hl2
        · subst hl2
          intro hc
          exact h (by simpa using hc)
        · have := ih2 l2 hl2
          intro hc
          exact this (List.mem_cons_of_mem _ hc)

/-!  ## `NewClause` canonicity  -/

theorem NewClause_id (i : Nat) (ls : List Literal) (o : String) (ps : Parents)
    (r : String) : (NewClause i ls o ps r).id = i := rfl

theorem NewClause_origin (i : Nat) (ls : List Literal) (o : String) (ps : Parents)
    (r : String) : (NewClause i ls o ps r).origin = o := rfl

theorem NewClause_parentsOf (i : Nat) (ls : List Literal) (o : String) (ps : Parents)
    (r : String) : (NewClause i ls o ps r).parentsOf = ps := rfl

theorem NewClause_literals (i : Nat) (ls : List Literal) (o : String) (ps : Parents)
    (r : String) :
    (NewClause i ls o ps r).literals = sortBy literalLe (removeDuplicateLiterals ls) := rfl

theorem NewClause_canonLits (i : Nat) (ls : List Literal) (o : String) (ps : Parents)
    (r : String) : CanonLits (NewClause i ls o ps r) := by
  rw [CanonLits, NewClause_literals]
  have hdn : ((removeDuplicateLiterals ls).map Literal.str).Nodup :=
    (removeDupAux_spec ls []).1
  have hsorted := sortBy_pairwise literalLe literalLe_total literalLe_trans
    (removeDuplicateLiterals ls)
  have hperm : (sortBy literalLe (removeDuplicateLiterals ls)).Perm
      (removeDuplicateLiterals ls) := sortBy_perm _ _
  have hndup2 : ((sortBy literalLe (removeDuplicateLiterals ls)).map Literal.str).Nodup :=
    ((hperm.map Literal.str).nodup_iff).mpr hdn
  have hne : (sortBy literalLe (removeDuplicateLiterals ls)).Pairwise
      (fun a b => a.str ≠ b.str) := (List.pairwise_map).mp hndup2
  refine (hsorted.and hne).imp ?_
  intro a b hab
  obtain ⟨h1, h2⟩ := hab
  rw [literalLe] at h1
  have hba : strLt b.str a.str = false := by
    revert h1
    cases strLt b.str a.str <;> simp
  cases hab2 : strLt a.str b.str with
  | true => rfl
  | false => exact absurd (strLt_conn hab2 hba) h2

/-!  ## Stringification length bounds (for the occurs-check)  -/

theorem containsVar_len :
    ∀ t : Term, ∀ n : String, Term.containsVar n t = true →
      n.data.length ≤ t.str.data.length :=
  @Term.rec
    (fun t => ∀ n : String, Term.containsVar n t = true →
      n.data.length ≤ t.str.data.length)
    (fun ts => ∀ n : String, termsContainVar n ts = true →
      n.data.length ≤ (strArgs ts).data.length)
    (fun nm => by
      intro n h
      rw [Term.containsVar] at h
      rw [Term.str, eq_of_beq h])
    (fun nm => by
      intro n h
      rw [Term.containsVar] at h
      cases h)
    (fun nm args ih => by
      intro n h
      rw [Term.containsVar] at h
      have := ih n h
      rw [Term.str]
      simp only [String.data_append, List.length_append] at *
      omega)
    (by
      intro n h
      rw [termsContainVar] at h
      cases h)
    (fun t ts iht ihts => by
      intro n h
      rw [termsContainVar] at h
      rcases Bool.or_eq_true_iff.mp h with h | h
      · have := iht n h
        cases ts with
        | nil => rw [strArgs]; exact this
        | cons t2 ts2 =>
          have hsa : strArgs (t :: t2 :: ts2) = Term.str t ++ (", ") ++ strArgs (t2 :: ts2) := rfl
          rw [hsa]
          simp only [String.data_append, List.length_append] at *
          omega
      · have := ihts n h
        cases ts with
        | nil => rw [termsContainVar] at h; cases h
        | cons t2 ts2 =>
          have hsa : strArgs (t :: t2 :: ts2) = Term.str t ++ (", ") ++ strArgs (t2 :: ts2) := rfl
          rw [hsa]
          simp only [String.data_append, List.length_append] at *
          omega)

theorem termsContainVar_len : ∀ (ts : List Term) (n : String),
    termsContainVar n ts = true → n.data.length ≤ (strArgs ts).data.length := by
  intro ts
  induction ts with
  | nil => intro n h; rw [termsContainVar] at h; cases h
  | cons t ts2 ih =>
    intro n h
    rw [termsContainVar] at h
    rcases Bool.or_eq_true_iff.mp h with h | h
    · have := containsVar_len t n h
      cases ts2 with
      | nil => rw [strArgs]; exact this
      | cons t2 ts3 =>
        have hsa : strArgs (t :: t2 :: ts3) = Term.str t ++ (", ") ++ strArgs (t2 :: ts3) := rfl
        rw [hsa]
        simp only [String.data_append, List.length_append] at *
        omega
    · have := ih n h
      cases ts2 with
      | nil => rw [termsContainVar] at h; cases h
      | cons t2 ts3 =>
        have hsa : strArgs (t :: t2 :: ts3) = Term.str t ++ (", ") ++ strArgs (t2 :: ts3) := rfl
        rw [hsa]
        simp only [String.data_append, List.length_append] at *
        omega

theorem containsVar_fn_len {n nm : String} {args : List Term}
    (h : Term.containsVar n (Term.fn nm args) = true) :
    n.data.length < ((Term.fn nm args).str).data.length := by
  rw [Term.containsVar] at h
  have hle : n.data.length ≤ (strArgs args).data.length := termsContainVar_len args n h
  rw [Term.str]
  simp only [String.data_append, List.length_append, List.length_cons, List.length_nil]
  omega

theorem var_fn_str_beq_false {n nm : String} {args : List Term}
    (h : Term.containsVar n (Term.fn nm args) = true) :
    ((Term.var n).str == (Term.fn nm args).str) = false := by
  cases hbeq : (Term.var n).str == (Term.fn nm args).str with
  | false => rfl
  | true =>
    exfalso
    have heq : (Term.var n).str = (Term.fn nm args).str := eq_of_beq hbeq
    have heq2 : n = (Term.fn nm args).str := heq
    have hlt := containsVar_fn_len h
    rw [heq2] at hlt
    exact lt_irrefl _ hlt

/-- The occurs-check refusal inside `unifyVar`, reached from `unify` on
a variable against a function term containing it, at every recursion
depth and from the empty substitution. -/
theorem unify_var_fn_occurs (fuel : Nat) (n nm : String) (args : List Term)
    (h : Term.containsVar n (Term.fn nm args) = true) :
    unify fuel (Term.var n) (Term.fn nm args) [] = Option.none := by
  match fuel with
  | 0 => rfl
  | fuel + 1 =>
    have hstep : unify (fuel + 1) (Term.var n) (Term.fn nm args) [] =
        (if (Term.var n).str == (Term.fn nm args).str then some []
         else unifyVar fuel (Term.var n) (Term.fn nm args) []) := rfl
    rw [hstep, var_fn_str_beq_false h]
    simp only [Bool.false_eq_true, if_false]
    match fuel with
    | 0 => rfl
    | f + 1 =>
      have hstep2 : unifyVar (f + 1) (Term.var n) (Term.fn nm args) [] =
          (if Term.containsVar n (Term.fn nm args) then Option.none
           else some [(n, Term.fn nm args)]) := rfl
      rw [hstep2, h]
      simp

/-!  ## `resolvePair` id threading  -/

theorem resolveInner_spec (uf : Nat) (c1 c2 : Clause) (i : Nat) (l1 : Literal) :
    ∀ (jls : List (Nat × Literal)) (ctr : Nat),
    ∃ rs ctr2, resolveInner uf c1 c2 i l1 jls ctr = (rs, ctr2) ∧
      ctr2 = ctr + rs.length ∧
      (rs.map Clause.id).Pairwise (· < ·) ∧
      (∀ r ∈ rs, ctr ≤ r.id ∧ r.id < ctr2 ∧ r.origin = ("res") ∧
        r.parentsOf = Parents.pair c1 c2 ∧ CanonLits r) := by
  intro jls
  induction jls with
  | nil =>
    intro ctr
    exact ⟨[], ctr, rfl, by simp, by simp, by simp⟩
  | cons jl rest ih =>
    intro ctr
    rw [resolveInner]
    by_cases hc : (l1.predicate == jl.2.predicate && l1.negated != jl.2.negated) = true
    · rw [if_pos hc]
      cases hu : unifyLit uf l1 (jl.2.negate) [] with
      | none =>
        obtain ⟨rs, ctr2, heq, hctr, hpw, hmem⟩ := ih ctr
        exact ⟨rs, ctr2, heq, hctr, hpw, hmem⟩
      | some theta =>
        obtain ⟨rs, ctr2, heq, hctr, hpw, hmem⟩ := ih (ctr + 1)
        refine ⟨NewClause ctr (otherLits c1 i theta ++ otherLits c2 jl.1 theta)
          ("res") (Parents.pair c1 c2) (ruleText theta) :: rs, ctr2, ?_, ?_, ?_, ?_⟩
        · simp only [heq]
        · simp only [List.length_cons]
          omega
        · rw [List.map_cons, List.pairwise_cons]
          refine ⟨?_, hpw⟩
          intro b hb
          obtain ⟨r, hr, hrid⟩ := List.mem_map.mp hb
          rw [NewClause_id, ← hrid]
          have := (hmem r hr).1
          omega
        · intro r hr
          rcases List.mem_cons.mp hr with hr | hr
          · subst hr
            refine ⟨by rw [NewClause_id], by rw [NewClause_id]; omega,
              NewClause_origin _ _ _ _ _, NewClause_parentsOf _ _ _ _ _,
              NewClause_canonLits _ _ _ _ _⟩
          · obtain ⟨ha, hb, hc2, hd, he⟩ := hmem r hr
            exact ⟨by omega, hb, hc2, hd, he⟩
    · rw [if_neg hc]
      exact ih ctr

theorem resolveOuter_spec (uf : Nat) (c1 c2 : Clause) :
    ∀ (ils : List (Nat × Literal)) (ctr : Nat),
    ∃ rs ctr2, resolveOuter uf c1 c2 ils ctr = (rs, ctr2) ∧
      ctr2 = ctr + rs.length ∧
      (rs.map Clause.id).Pairwise (· < ·) ∧
      (∀ r ∈ rs, ctr ≤ r.id ∧ r.id < ctr2 ∧ r.origin = ("res") ∧
        r.parentsOf = Parents.pair c1 c2 ∧ CanonLits r) := by
  intro ils
  induction ils with
  | nil =>
    intro ctr
    exact ⟨[], ctr, rfl, by simp, by simp, by simp⟩
  | cons il rest ih =>
    intro ctr
    rw [resolveOuter]
    obtain ⟨rs1, ctrA, heq1, hctr1, hpw1, hmem1⟩ :=
      resolveInner_spec uf c1 c2 il.1 il.2 c2.literals.enum ctr
    obtain ⟨rs2, ctrB, heq2, hctr2, hpw2, hmem2⟩ := ih ctrA
    refine ⟨rs1 ++ rs2, ctrB, ?_, ?_, ?_, ?_⟩
    · rw [heq1]
      simp only [heq2]
    · simp only [List.length_append]
      omega
    · rw [List.map_append]
      apply List.pairwise_append.mpr
      refine ⟨hpw1, hpw2, ?_⟩
      intro a ha b hb
      obtain ⟨r1, hr1, hid1⟩ := List.mem_map.mp ha
      obtain ⟨r2, hr2, hid2⟩ := List.mem_map.mp hb
      have h1 := (hmem1 r1 hr1).2.1
      have h2 := (hmem2 r2 hr2).1
      omega
    · intro r hr
      rcases List.mem_append.mp hr with hr | hr
      · obtain ⟨ha, hb, hc, hd, he⟩ := hmem1 r hr
        exact ⟨ha, by omega, hc, hd, he⟩
      · obtain ⟨ha, hb, hc, hd, he⟩ := hmem2 r hr
        exact ⟨by omega, hb, hc, hd, he⟩

theorem resolvePair_spec (uf : Nat) (c1 c2 : Clause) (ctr : Nat) :
    ∃ rs ctr2, resolvePair uf c1 c2 ctr = (rs, ctr2) ∧
      ctr2 = ctr + rs.length ∧
      (rs.map Clause.id).Pairwise (· < ·) ∧
      (∀ r ∈ rs, ctr ≤ r.id ∧ r.id < ctr2 ∧ r.origin = ("res") ∧
        r.parentsOf = Parents.pair c1 c2 ∧ CanonLits r) := by
  rw [resolvePair]
  exact resolveOuter_spec uf c1 c2 c1.literals.enum ctr

/-!  ## Saturation loop invariants  -/

/-- The state carried by a `HandleRes`. -/
def HandleRes.state : HandleRes → SatState
  | .found _ st => st
  | .cont st _ => st

/-- The state carried by a `PassRes`. -/
def PassRes.state : PassRes → SatState
  | .timeout st => st
  | .found _ st => st
  | .complete st _ => st

/-- The run-long invariant of the saturation state: active and
allocated clauses have ids below the counter, allocation order has
strictly increasing ids, resolvent parents have smaller ids than their
child, and every allocated clause has a canonical literal list. -/
def EngineInv (st : SatState) : Prop :=
  (∀ c ∈ st.active, c.id < st.counter) ∧
  ((st.alloc.map Clause.id).Pairwise (· < ·)) ∧
  (∀ c ∈ st.alloc, c.id < st.counter) ∧
  (∀ c ∈ st.alloc, ∀ p q : Clause, c.parentsOf = Parents.pair p q →
    p.id < c.id ∧ q.id < c.id) ∧
  (∀ c ∈ st.alloc, CanonLits c)

theorem handleResolvents_state (c1 c2 : Clause) :
    ∀ (rs : List Clause) (st : SatState) (p : Bool),
    (handleResolvents c1 c2 rs st p).state.counter = st.counter ∧
    (handleResolvents c1 c2 rs st p).state.alloc = st.alloc ∧
    (handleResolvents c1 c2 rs st p).state.processedChecks = st.processedChecks ∧
    (handleResolvents c1 c2 rs st p).state.processedPairs = st.processedPairs ∧
    (∀ c ∈ (handleResolvents c1 c2 rs st p).state.active, c ∈ st.active ∨ c ∈ rs) ∧
    (∀ c stf, handleResolvents c1 c2 rs st p = HandleRes.found c stf →
      c.isEmpty = true ∧ c ∈ rs) := by
  intro rs
  induction rs with
  | nil =>
    intro st p
    refine ⟨rfl, rfl, rfl, rfl, fun c hc => Or.inl hc, fun c stf h => by cases h⟩
  | cons r rest ih =>
    intro st p
    rw [handleResolvents]
    by_cases hdup : (st.active.any fun existing => Clause.equal r existing) = true
    · rw [if_pos hdup]
      obtain ⟨h1, h2, h3, h4, h5, h6⟩ := ih st p
      refine ⟨h1, h2, h3, h4, ?_, ?_⟩
      · intro c hc
        rcases h5 c hc with hc | hc
        · exact Or.inl hc
        · exact Or.inr (List.mem_cons_of_mem _ hc)
      · intro c stf h
        obtain ⟨he, hm⟩ := h6 c stf h
        exact ⟨he, List.mem_cons_of_mem _ hm⟩
    · rw [if_neg hdup]
      by_cases hemp : r.isEmpty = true
      · rw [if_pos hemp]
        refine ⟨rfl, rfl, rfl, rfl, ?_, ?_⟩
        · intro c hc
          simp only [HandleRes.state] at hc
          rcases List.mem_append.mp hc with hc | hc
          · exact Or.inl hc
          · rw [List.mem_singleton.mp hc]
            exact Or.inr (List.mem_cons_self _ _)
        · intro c stf h
          cases h
          exact ⟨hemp, List.mem_cons_self _ _⟩
      · rw [if_neg hemp]
        obtain ⟨h1, h2, h3, h4, h5, h6⟩ := ih _ true
        refine ⟨h1, h2, h3, h4, ?_, ?_⟩
        · intro c hc
          rcases h5 c hc with hc | hc
          · simp only [List.mem_append, List.mem_singleton] at hc
            rcases hc with hc | hc
            · exact Or.inl hc
            · rw [hc]
              exact Or.inr (List.mem_cons_self _ _)
          · exact Or.inr (List.mem_cons_of_mem _ hc)
        · intro c stf h
          obtain ⟨he, hm⟩ := h6 c stf h
          exact ⟨he, List.mem_cons_of_mem _ hm⟩

@[simp] theorem bumpChecks_active (st : SatState) :
    (bumpChecks st).active = st.active := rfl

@[simp] theorem bumpChecks_processedPairs (st : SatState) :
    (bumpChecks st).processedPairs = st.processedPairs := rfl

@[simp] theorem bumpChecks_processedChecks (st : SatState) :
    (bumpChecks st).processedChecks = st.processedChecks + 1 := rfl

@[simp] theorem bumpChecks_counter (st : SatState) :
    (bumpChecks st).counter = st.counter := rfl

@[simp] theorem bumpChecks_alloc (st : SatState) :
    (bumpChecks st).alloc = st.alloc := rfl

@[simp] theorem markPair_active (st : SatState) (pid : Nat × Nat) :
    (markPair st pid).active = st.active := rfl

@[simp] theorem markPair_processedChecks (st : SatState) (pid : Nat × Nat) :
    (markPair st pid).processedChecks = st.processedChecks := rfl

@[simp] theorem markPair_counter (st : SatState) (pid : Nat × Nat) :
    (markPair st pid).counter = st.counter := rfl

@[simp] theorem markPair_alloc (st : SatState) (pid : Nat × Nat) :
    (markPair st pid).alloc = st.alloc := rfl

@[simp] theorem addAlloc_active (st : SatState) (rs : List Clause) (ctr2 : Nat) :
    (addAlloc st rs ctr2).active = st.active := rfl

@[simp] theorem addAlloc_processedChecks (st : SatState) (rs : List Clause) (ctr2 : Nat) :
    (addAlloc st rs ctr2).processedChecks = st.processedChecks := rfl

@[simp] theorem addAlloc_processedPairs (st : SatState) (rs : List Clause) (ctr2 : Nat) :
    (addAlloc st rs ctr2).processedPairs = st.processedPairs := rfl

@[simp] theorem addAlloc_counter (st : SatState) (rs : List Clause) (ctr2 : Nat) :
    (addAlloc st rs ctr2).counter = ctr2 := rfl

@[simp] theorem addAlloc_alloc (st : SatState) (rs : List Clause) (ctr2 : Nat) :
    (addAlloc st rs ctr2).alloc = st.alloc ++ rs := rfl

theorem runPairs_spec (uf : Nat) :
    ∀ (pairs : List (Clause × Clause)) (st : SatState) (p : Bool),
    st.processedChecks ≤ (runPairs uf pairs st p).state.processedChecks ∧
    st.counter ≤ (runPairs uf pairs st p).state.counter ∧
    (st.processedChecks ≤ max_iterations →
      (∀ st2, runPairs uf pairs st p = PassRes.timeout st2 →
        st2.processedChecks = max_iterations + 1) ∧
      (∀ st2 p2, runPairs uf pairs st p = PassRes.complete st2 p2 →
        st2.processedChecks ≤ max_iterations) ∧
      (∀ c st2, runPairs uf pairs st p = PassRes.found c st2 →
        st2.processedChecks ≤ max_iterations)) ∧
    (∀ c st2, runPairs uf pairs st p = PassRes.found c st2 → c.isEmpty = true) := by
  intro pairs
  induction pairs with
  | nil =>
    intro st p
    refine ⟨le_refl _, le_refl _, fun hb => ⟨?_, ?_, ?_⟩, ?_⟩
    · intro st2 h; cases h
    · intro st2 p2 h
      cases h
      exact hb
    · intro c st2 h; cases h
    · intro c st2 h; cases h
  | cons pr rest ih =>
    intro st p
    rw [runPairs]
    simp only [bumpChecks_processedChecks, bumpChecks_processedPairs]
    by_cases hto : st.processedChecks + 1 > max_iterations
    · rw [if_pos hto]
      refine ⟨?_, ?_, fun hb => ⟨?_, ?_, ?_⟩, ?_⟩
      · simp [PassRes.state]
      · simp [PassRes.state]
      · intro st2 h
        cases h
        simp only [bumpChecks_processedChecks]
        omega
      · intro st2 p2 h; cases h
      · intro c st2 h; cases h
      · intro c st2 h; cases h
    · rw [if_neg hto]
      by_cases hskip : (st.processedPairs.contains (normPair pr.1.id pr.2.id)) = true
      · rw [if_pos hskip]
        obtain ⟨i1, i2, i3, i4⟩ := ih (bumpChecks st) p
        simp only [bumpChecks_processedChecks, bumpChecks_counter] at i1 i2 i3
        refine ⟨by omega, i2, fun hb => i3 (by omega), i4⟩
      · rw [if_neg hskip]
        obtain ⟨rs, ctr2, heqr, hctr2, hpw, hmem⟩ :=
          resolvePair_spec uf pr.1 pr.2 st.counter
        simp only [markPair_counter, bumpChecks_counter, heqr]
        set stMid := addAlloc (markPair (bumpChecks st) (normPair pr.1.id pr.2.id))
          rs ctr2 with hstMid
        have hmidChecks : stMid.processedChecks = st.processedChecks + 1 := by
          rw [hstMid]; simp
        have hmidCounter : stMid.counter = ctr2 := by
          rw [hstMid]; simp
        obtain ⟨g1, g2, g3, g4, g5, g6⟩ := handleResolvents_state pr.1 pr.2 rs stMid p
        cases hh : handleResolvents pr.1 pr.2 rs stMid p with
        | found c st4 =>
          rw [hh] at g1 g2 g3 g4 g5 g6
          simp only [HandleRes.state] at g1 g2 g3 g4 g5
          refine ⟨?_, ?_, fun hb => ⟨?_, ?_, ?_⟩, ?_⟩
          · simp only [PassRes.state, g3, hmidChecks]
            omega
          · simp only [PassRes.state, g1, hmidCounter]
            omega
          · intro st2 h; cases h
          · intro st2 p2 h; cases h
          · intro c2 st2 h
            cases h
            rw [g3, hmidChecks]
            omega
          · intro c2 st2 h
            cases h
            exact (g6 _ _ rfl).1
        | cont st4 p4 =>
          rw [hh] at g1 g2 g3 g4 g5 g6
          simp only [HandleRes.state] at g1 g2 g3 g4 g5
          obtain ⟨i1, i2, i3, i4⟩ := ih st4 p4
          refine ⟨?_, ?_, fun hb => ?_, i4⟩
          · refine le_trans ?_ i1
            rw [g3, hmidChecks]
            omega
          · refine le_trans ?_ i2
            rw [g1, hmidCounter]
            omega
          · have hb4 : st4.processedChecks ≤ max_iterations := by
              rw [g3, hmidChecks]
              omega
            exact i3 hb4

theorem runPairs_inv (uf : Nat) :
    ∀ (pairs : List (Clause × Clause)) (st : SatState) (p : Bool),
    EngineInv st → (∀ pr ∈ pairs, pr.1.id < st.counter ∧ pr.2.id < st.counter) →
    EngineInv (runPairs uf pairs st p).state := by
  intro pairs
  induction pairs with
  | nil => intro st p hinv _; exact hinv
  | cons pr rest ih =>
    intro st p hinv hprs
    rw [runPairs]
    simp only [bumpChecks_processedChecks, bumpChecks_processedPairs]
    by_cases hto : st.processedChecks + 1 > max_iterations
    · rw [if_pos hto]
      exact hinv
    · rw [if_neg hto]
      have hinv1 : EngineInv (bumpChecks st) := hinv
      by_cases hskip : (st.processedPairs.contains (normPair pr.1.id pr.2.id)) = true
      · rw [if_pos hskip]
        refine ih _ p hinv1 ?_
        intro pr2 hpr2
        exact hprs pr2 (List.mem_cons_of_mem _ hpr2)
      · rw [if_neg hskip]
        obtain ⟨hpr1, hpr2⟩ := hprs pr (List.mem_cons_self _ _)
        obtain ⟨rs, ctr2, heqr, hctr2, hpw, hmem⟩ :=
          resolvePair_spec uf pr.1 pr.2 st.counter
        simp only [markPair_counter, bumpChecks_counter, heqr]
        set stMid := addAlloc (markPair (bumpChecks st) (normPair pr.1.id pr.2.id))
          rs ctr2 with hstMid
        have hmidCounter : stMid.counter = ctr2 := by rw [hstMid]; simp
        have hmidAlloc : stMid.alloc = st.alloc ++ rs := by rw [hstMid]; simp
        have hmidActive : stMid.active = st.active := by rw [hstMid]; simp
        obtain ⟨e1, e2, e3, e4, e5⟩ := hinv
        have hctrle : st.counter ≤ ctr2 := by omega
        have hinvMid : EngineInv stMid := by
          refine ⟨?_, ?_, ?_, ?_, ?_⟩
          · intro c hc
            rw [hmidActive] at hc
            rw [hmidCounter]
            exact lt_of_lt_of_le (e1 c hc) hctrle
          · rw [hmidAlloc, List.map_append]
            apply List.pairwise_append.mpr
            refine ⟨e2, hpw, ?_⟩
            intro a ha b hb
            obtain ⟨ca, hca, hida⟩ := List.mem_map.mp ha
            obtain ⟨cb, hcb, hidb⟩ := List.mem_map.mp hb
            have h1 := e3 ca hca
            have h2 := (hmem cb hcb).1
            omega
          · intro c hc
            rw [hmidAlloc] at hc
            rw [hmidCounter]
            rcases List.mem_append.mp hc with hc | hc
            · exact lt_of_lt_of_le (e3 c hc) hctrle
            · exact (hmem c hc).2.1
          · intro c hc pp qq hpq
            rw [hmidAlloc] at hc
            rcases List.mem_append.mp hc with hc | hc
            · exact e4 c hc pp qq hpq
            · obtain ⟨ha, hb, hc2, hd, he⟩ := hmem c hc
              rw [hd] at hpq
              cases hpq
              exact ⟨lt_of_lt_of_le hpr1 ha, lt_of_lt_of_le hpr2 ha⟩
          · intro c hc
            rw [hmidAlloc] at hc
            rcases List.mem_append.mp hc with hc | hc
            · exact e5 c hc
            · exact (hmem c hc).2.2.2.2
        obtain ⟨g1, g2, g3, g4, g5, g6⟩ := handleResolvents_state pr.1 pr.2 rs stMid p
        cases hh : handleResolvents pr.1 pr.2 rs stMid p with
        | found c st4 =>
          rw [hh] at g1 g2 g3 g4 g5
          simp only [HandleRes.state] at g1 g2 g3 g4 g5
          obtain ⟨m1, m2, m3, m4, m5⟩ := hinvMid
          refine ⟨?_, ?_, ?_, ?_, ?_⟩
          · intro c2 hc2
            simp only [PassRes.state] at hc2 ⊢
            rw [g1]
            rcases g5 c2 hc2 with hc2 | hc2
            · rw [hmidActive] at hc2
              rw [hmidCounter]
              exact lt_of_lt_of_le (e1 c2 hc2) hctrle
            · rw [hmidCounter]
              exact (hmem c2 hc2).2.1
          · simp only [PassRes.state]
            rw [g2]
            exact m2
          · intro c2 hc2
            simp only [PassRes.state] at hc2 ⊢
            rw [g2] at hc2
            rw [g1]
            exact m3 c2 hc2
          · intro c2 hc2 pp qq hpq
            simp only [PassRes.state] at hc2
            rw [g2] at hc2
            exact m4 c2 hc2 pp qq hpq
          · intro c2 hc2
            simp only [PassRes.state] at hc2
            rw [g2] at hc2
            exact m5 c2 hc2
        | cont st4 p4 =>
          rw [hh] at g1 g2 g3 g4 g5
          simp only [HandleRes.state] at g1 g2 g3 g4 g5
          obtain ⟨m1, m2, m3, m4, m5⟩ := hinvMid
          have hinv4 : EngineInv st4 := by
            refine ⟨?_, ?_, ?_, ?_, ?_⟩
            · intro c2 hc2
              rw [g1]
              rcases g5 c2 hc2 with hc2 | hc2
              · rw [hmidActive] at hc2
                rw [hmidCounter]
                exact lt_of_lt_of_le (e1 c2 hc2) hctrle
              · rw [hmidCounter]
                exact (hmem c2 hc2).2.1
            · rw [g2]; exact m2
            · intro c2 hc2
              rw [g2] at hc2
              rw [g1]
              exact m3 c2 hc2
            · intro c2 hc2 pp qq hpq
              rw [g2] at hc2
              exact m4 c2 hc2 pp qq hpq
            · intro c2 hc2
              rw [g2] at hc2
              exact m5 c2 hc2
          refine ih st4 p4 hinv4 ?_
          intro pr2 hpr2
          obtain ⟨ha, hb⟩ := hprs pr2 (List.mem_cons_of_mem _ hpr2)
          have hcc : st.counter ≤ st4.counter := by
            rw [g1, hmidCounter]
            omega
          exact ⟨lt_of_lt_of_le ha hcc, lt_of_lt_of_le hb hcc⟩

theorem runPairs_progress (uf : Nat) :
    ∀ (pairs : List (Clause × Clause)) (st : SatState) (p : Bool) (st2 : SatState)
    (p2 : Bool), runPairs uf pairs st p = PassRes.complete st2 p2 →
    p2 = p ∨ st.processedChecks < st2.processedChecks := by
  intro pairs
  induction pairs with
  | nil =>
    intro st p st2 p2 h
    cases h
    exact Or.inl rfl
  | cons pr rest ih =>
    intro st p st2 p2 h
    rw [runPairs] at h
    simp only [bumpChecks_processedChecks, bumpChecks_processedPairs] at h
    by_cases hto : st.processedChecks + 1 > max_iterations
    · rw [if_pos hto] at h
      cases h
    · rw [if_neg hto] at h
      by_cases hskip : (st.processedPairs.contains (normPair pr.1.id pr.2.id)) = true
      · rw [if_pos hskip] at h
        rcases ih _ p st2 p2 h with hh | hh
        · exact Or.inl hh
        · right
          simp only [bumpChecks_processedChecks] at hh
          omega
      · rw [if_neg hskip] at h
        obtain ⟨rs, ctr2, heqr, hctr2, hpw, hmem⟩ :=
          resolvePair_spec uf pr.1 pr.2 st.counter
        simp only [markPair_counter, bumpChecks_counter, heqr] at h
        set stMid := addAlloc (markPair (bumpChecks st) (normPair pr.1.id pr.2.id))
          rs ctr2 with hstMid
        have hmidChecks : stMid.processedChecks = st.processedChecks + 1 := by
          rw [hstMid]; simp
        obtain ⟨g1, g2, g3, g4, g5, g6⟩ := handleResolvents_state pr.1 pr.2 rs stMid p
        cases hh : handleResolvents pr.1 pr.2 rs stMid p with
        | found c st4 =>
          rw [hh] at h
          cases h
        | cont st4 p4 =>
          rw [hh] at h
          rw [hh] at g3
          simp only [HandleRes.state] at g3
          right
          have h2 : runPairs uf rest st4 p4 = PassRes.complete st2 p2 := h
          have hmono := (runPairs_spec uf rest st4 p4).1
          rw [h2] at hmono
          simp only [PassRes.state] at hmono
          rw [g3, hmidChecks] at hmono
          omega

theorem listPairs_mem : ∀ (l : List Clause) (pr : Clause × Clause),
    pr ∈ listPairs l → pr.1 ∈ l ∧ pr.2 ∈ l := by
  intro l
  induction l with
  | nil => intro pr h; cases h
  | cons c rest ih =>
    intro pr h
    rw [listPairs] at h
    rcases List.mem_append.mp h with h | h
    · obtain ⟨d, hd, hpr⟩ := List.mem_map.mp h
      rw [← hpr]
      exact ⟨List.mem_cons_self _ _, List.mem_cons_of_mem _ hd⟩
    · obtain ⟨h1, h2⟩ := ih pr h
      exact ⟨List.mem_cons_of_mem _ h1, List.mem_cons_of_mem _ h2⟩

theorem outerLoop_inv (uf : Nat) : ∀ (fuel : Nat) (st : SatState),
    EngineInv st → EngineInv (outerLoop uf fuel st).state := by
  intro fuel
  induction fuel with
  | zero => intro st h; exact h
  | succ f ih =>
    intro st hinv
    rw [outerLoop]
    have hpairs : ∀ pr ∈ listPairs st.active,
        pr.1.id < st.counter ∧ pr.2.id < st.counter := by
      intro pr hpr
      obtain ⟨h1, h2⟩ := listPairs_mem st.active pr hpr
      exact ⟨hinv.1 pr.1 h1, hinv.1 pr.2 h2⟩
    have hrp := runPairs_inv uf (listPairs st.active) st false hinv hpairs
    cases hr : runPairs uf (listPairs st.active) st false with
    | timeout st2 =>
      rw [hr] at hrp
      exact hrp
    | found c st2 =>
      rw [hr] at hrp
      exact hrp
    | complete st2 progress =>
      rw [hr] at hrp
      cases progress with
      | true => exact ih st2 hrp
      | false => exact hrp

theorem outerLoop_contra_empty (uf : Nat) :
    ∀ (fuel : Nat) (st : SatState) (c : Clause) (st2 : SatState),
    outerLoop uf fuel st = Outcome.contradiction c st2 → c.isEmpty = true := by
  intro fuel
  induction fuel with
  | zero =>
    intro st c st2 h
    cases h
  | succ f ih =>
    intro st c st2 h
    rw [outerLoop] at h
    cases hr : runPairs uf (listPairs st.active) st false with
    | timeout st3 =>
      rw [hr] at h
      have h2 : Outcome.timeout st3 = Outcome.contradiction c st2 := h
      cases h2
    | found c3 st3 =>
      rw [hr] at h
      have h2 : Outcome.contradiction c3 st3 = Outcome.contradiction c st2 := h
      cases h2
      exact (runPairs_spec uf (listPairs st.active) st false).2.2.2 _ _ hr
    | complete st3 progress =>
      rw [hr] at h
      cases progress with
      | true =>
        have h2 : outerLoop uf f st3 = Outcome.contradiction c st2 := h
        exact ih st3 c st2 h2
      | false =>
        have h2 : Outcome.saturated
            { st3 with logLines := st3.logLines ++
                [("\nРезультат: Противоречие не найдено (база непротиворечива).")] } =
            Outcome.contradiction c st2 := h
        cases h2

theorem outerLoop_checks (uf : Nat) : ∀ (fuel : Nat) (st : SatState),
    st.processedChecks ≤ max_iterations →
    (∀ st2, outerLoop uf fuel st = Outcome.timeout st2 →
      st2.processedChecks = max_iterations + 1) ∧
    (∀ c st2, outerLoop uf fuel st = Outcome.contradiction c st2 →
      st2.processedChecks ≤ max_iterations) ∧
    (∀ st2, outerLoop uf fuel st = Outcome.saturated st2 →
      st2.processedChecks ≤ max_iterations) ∧
    (∀ st2, outerLoop uf fuel st = Outcome.fuelOut st2 →
      st2.processedChecks ≤ max_iterations) := by
  intro fuel
  induction fuel with
  | zero =>
    intro st hb
    refine ⟨?_, ?_, ?_, ?_⟩
    · intro st2 h; cases h
    · intro c st2 h; cases h
    · intro st2 h; cases h
    · intro st2 h
      have h2 : Outcome.fuelOut st = Outcome.fuelOut st2 := h
      cases h2
      exact hb
  | succ f ih =>
    intro st hb
    rw [outerLoop]
    obtain ⟨q1, q2, q3, q4⟩ := runPairs_spec uf (listPairs st.active) st false
    obtain ⟨r1, r2, r3⟩ := q3 hb
    cases hr : runPairs uf (listPairs st.active) st false with
    | timeout st3 =>
      refine ⟨?_, ?_, ?_, ?_⟩
      · intro st2 h
        have h2 : Outcome.timeout st3 = Outcome.timeout st2 := h
        cases h2
        exact r1 st3 hr
      · intro c st2 h
        have h2 : Outcome.timeout st3 = Outcome.contradiction c st2 := h
        cases h2
      · intro st2 h
        have h2 : Outcome.timeout st3 = Outcome.saturated st2 := h
        cases h2
      · intro st2 h
        have h2 : Outcome.timeout st3 = Outcome.fuelOut st2 := h
        cases h2
    | found c3 st3 =>
      refine ⟨?_, ?_, ?_, ?_⟩
      · intro st2 h
        have h2 : Outcome.contradiction c3 st3 = Outcome.timeout st2 := h
        cases h2
      · intro c st2 h
        have h2 : Outcome.contradiction c3 st3 = Outcome.contradiction c st2 := h
        cases h2
        exact r3 c3 st3 hr
      · intro st2 h
        have h2 : Outcome.contradiction c3 st3 = Outcome.saturated st2 := h
        cases h2
      · intro st2 h
        have h2 : Outcome.contradiction c3 st3 = Outcome.fuelOut st2 := h
        cases h2
    | complete st3 progress =>
      have hb3 : st3.processedChecks ≤ max_iterations := r2 st3 progress hr
      cases progress with
      | true =>
        obtain ⟨s1, s2, s3, s4⟩ := ih st3 hb3
        refine ⟨?_, ?_, ?_, ?_⟩
        · intro st2 h
          exact s1 st2 h
        · intro c st2 h
          exact s2 c st2 h
        · intro st2 h
          exact s3 st2 h
        · intro st2 h
          exact s4 st2 h
      | false =>
        refine ⟨?_, ?_, ?_, ?_⟩
        · intro st2 h
          have h2 : Outcome.saturated
              { st3 with logLines := st3.logLines ++
                  [("\nРезультат: Противоречие не найдено (база непротиворечива).")] } =
              Outcome.timeout st2 := h
          cases h2
        · intro c st2 h
          have h2 : Outcome.saturated
              { st3 with logLines := st3.logLines ++
                  [("\nРезультат: Противоречие не найдено (база непротиворечива).")] } =
              Outcome.contradiction c st2 := h
          cases h2
        · intro st2 h
          have h2 : Outcome.saturated
              { st3 with logLines := st3.logLines ++
                  [("\nРезультат: Противоречие не найдено (база непротиворечива).")] } =
              Outcome.saturated st2 := h
          cases h2
          exact hb3
        · intro st2 h
          have h2 : Outcome.saturated
              { st3 with logLines := st3.logLines ++
                  [("\nРезультат: Противоречие не найдено (база непротиворечива).")] } =
              Outcome.fuelOut st2 := h
          cases h2

theorem outerLoop_no_fuelOut (uf : Nat) : ∀ (fuel : Nat) (st : SatState),
    st.processedChecks ≤ max_iterations →
    max_iterations + 1 ≤ fuel + st.processedChecks →
    ∀ st2, outerLoop uf fuel st ≠ Outcome.fuelOut st2 := by
  intro fuel
  induction fuel with
  | zero =>
    intro st hb hf st2 h
    omega
  | succ f ih =>
    intro st hb hf st2 h
    rw [outerLoop] at h
    obtain ⟨q1, q2, q3, q4⟩ := runPairs_spec uf (listPairs st.active) st false
    obtain ⟨r1, r2, r3⟩ := q3 hb
    cases hr : runPairs uf (listPairs st.active) st false with
    | timeout st3 =>
      rw [hr] at h
      have h2 : Outcome.timeout st3 = Outcome.fuelOut st2 := h
      cases h2
    | found c3 st3 =>
      rw [hr] at h
      have h2 : Outcome.contradiction c3 st3 = Outcome.fuelOut st2 := h
      cases h2
    | complete st3 progress =>
      rw [hr] at h
      cases progress with
      | true =>
        have h2 : outerLoop uf f st3 = Outcome.fuelOut st2 := h
        have hprog := runPairs_progress uf (listPairs st.active) st false st3 true hr
        have hgt : st.processedChecks < st3.processedChecks := by
          rcases hprog with hp | hp
          · cases hp
          · exact hp
        have hb3 : st3.processedChecks ≤ max_iterations := r2 st3 true hr
        exact ih st3 hb3 (by omega) st2 h2
      | false =>
        have h2 : Outcome.saturated
            { st3 with logLines := st3.logLines ++
                [("\nРезультат: Противоречие не найдено (база непротиворечива).")] } =
            Outcome.fuelOut st2 := h
        cases h2

theorem parseInputAux_spec : ∀ (inputs : List String) (ctr : Nat),
    ∃ cs ctr2, parseInputAux inputs ctr = (cs, ctr2) ∧
      ctr2 = ctr + cs.length ∧
      ((cs.map Clause.id).Pairwise (· < ·)) ∧
      (∀ c ∈ cs, ctr ≤ c.id ∧ c.id < ctr2 ∧ c.origin = ("init") ∧
        c.parentsOf = Parents.none ∧ CanonLits c) := by
  intro inputs
  induction inputs with
  | nil =>
    intro ctr
    exact ⟨[], ctr, rfl, by simp, by simp, by simp⟩
  | cons s rest ih =>
    intro ctr
    obtain ⟨cs, ctr2, heq, hc, hpw, hmem⟩ := ih (ctr + 1)
    refine ⟨NewClause ctr (parsePieces s) ("init") (Parents.none) ("") :: cs, ctr2,
      ?_, ?_, ?_, ?_⟩
    · rw [parseInputAux]
      simp only [heq]
    · simp only [List.length_cons]
      omega
    · rw [List.map_cons, List.pairwise_cons]
      refine ⟨?_, hpw⟩
      intro b hb
      obtain ⟨c, hcm, hid⟩ := List.mem_map.mp hb
      rw [NewClause_id, ← hid]
      have := (hmem c hcm).1
      omega
    · intro c hcm
      rcases List.mem_cons.mp hcm with hcm | hcm
      · subst hcm
        refine ⟨by rw [NewClause_id], by rw [NewClause_id]; omega,
          NewClause_origin _ _ _ _ _, NewClause_parentsOf _ _ _ _ _,
          NewClause_canonLits _ _ _ _ _⟩
      · obtain ⟨h1, h2, h3, h4, h5⟩ := hmem c hcm
        exact ⟨by omega, h2, h3, h4, h5⟩

theorem parseInput_engineInv (inputs : List String) :
    EngineInv (initState (ParseInput inputs)) := by
  obtain ⟨cs, ctr2, heq, hc, hpw, hmem⟩ := parseInputAux_spec inputs 1
  have hpi : ParseInput inputs = ⟨cs, ctr2⟩ := by
    rw [ParseInput]
    simp only [heq]
  rw [hpi]
  refine ⟨?_, ?_, ?_, ?_, ?_⟩
  · intro c hcm
    exact (hmem c hcm).2.1
  · exact hpw
  · intro c hcm
    exact (hmem c hcm).2.1
  · intro c hcm p q hpq
    rw [(hmem c hcm).2.2.2.1] at hpq
    cases hpq
  · intro c hcm
    exact (hmem c hcm).2.2.2.2

/-!  ## Runs over empty-literal clauses  -/

theorem NewClause_literals_nil (i : Nat) (o : String) (ps : Parents) (r : String) :
    (NewClause i [] o ps r).literals = [] := rfl

theorem resolvePair_empty (uf : Nat) (c1 c2 : Clause) (ctr : Nat)
    (h : c1.literals = []) : resolvePair uf c1 c2 ctr = ([], ctr) := by
  rw [resolvePair, h]
  rfl

theorem parseInputAux_length : ∀ (inputs : List String) (ctr : Nat),
    (parseInputAux inputs ctr).1.length = inputs.length := by
  intro inputs
  induction inputs with
  | nil => intro ctr; rfl
  | cons s rest ih =>
    intro ctr
    rw [parseInputAux]
    simp only [List.length_cons]
    rw [ih (ctr + 1)]

theorem parseInputAux_empty : ∀ (inputs : List String) (ctr : Nat),
    (∀ s ∈ inputs, parsePieces s = []) →
    ∀ c ∈ (parseInputAux inputs ctr).1, c.literals = [] := by
  intro inputs
  induction inputs with
  | nil => intro ctr _ c hc; cases hc
  | cons s rest ih =>
    intro ctr hall c hc
    rw [parseInputAux] at hc
    simp only [List.mem_cons] at hc
    rcases hc with hc | hc
    · rw [hc, hall s (List.mem_cons_self _ _)]
      exact NewClause_literals_nil _ _ _ _
    · exact ih (ctr + 1) (fun s2 hs2 => hall s2 (List.mem_cons_of_mem _ hs2)) c hc

theorem runPairs_allEmpty (uf : Nat) :
    ∀ (pairs : List (Clause × Clause)) (st : SatState) (p : Bool),
    (∀ pr ∈ pairs, pr.1.literals = []) →
    (∃ st2, runPairs uf pairs st p = PassRes.timeout st2) ∨
    (∃ st2, runPairs uf pairs st p = PassRes.complete st2 p ∧
      st2.processedChecks = st.processedChecks + pairs.length) := by
  intro pairs
  induction pairs with
  | nil =>
    intro st p _
    right
    exact ⟨st, rfl, by simp⟩
  | cons pr rest ih =>
    intro st p hall
    rw [runPairs]
    simp only [bumpChecks_processedChecks, bumpChecks_processedPairs]
    by_cases hto : st.processedChecks + 1 > max_iterations
    · rw [if_pos hto]
      exact Or.inl ⟨bumpChecks st, rfl⟩
    · rw [if_neg hto]
      by_cases hskip : (st.processedPairs.contains (normPair pr.1.id pr.2.id)) = true
      · rw [if_pos hskip]
        rcases ih (bumpChecks st) p
            (fun pr2 hpr2 => hall pr2 (List.mem_cons_of_mem _ hpr2)) with
          ⟨st2, h2⟩ | ⟨st2, h2, h3⟩
        · exact Or.inl ⟨st2, h2⟩
        · right
          refine ⟨st2, h2, ?_⟩
          rw [h3]
          simp only [bumpChecks_processedChecks, List.length_cons]
          omega
      · rw [if_neg hskip]
        have hrp : resolvePair uf pr.1 pr.2 st.counter = ([], st.counter) :=
          resolvePair_empty uf pr.1 pr.2 st.counter
            (hall pr (List.mem_cons_self _ _))
        simp only [markPair_counter, bumpChecks_counter, hrp]
        set stMid := addAlloc (markPair (bumpChecks st) (normPair pr.1.id pr.2.id))
          [] st.counter with hstMid
        have hred : handleResolvents pr.1 pr.2 [] stMid p = HandleRes.cont stMid p := rfl
        rcases ih stMid p (fun pr2 hpr2 => hall pr2 (List.mem_cons_of_mem _ hpr2)) with
          ⟨st2, h2⟩ | ⟨st2, h2, h3⟩
        · left
          exact ⟨st2, h2⟩
        · right
          refine ⟨st2, h2, ?_⟩
          rw [h3, hstMid]
          simp only [addAlloc_processedChecks, markPair_processedChecks,
            bumpChecks_processedChecks, List.length_cons]
          omega

theorem listPairs_len : ∀ (l : List Clause),
    2 * (listPairs l).length = l.length * l.length - l.length := by
  intro l
  induction l with
  | nil => rfl
  | cons c rest ih =>
    rw [listPairs]
    simp only [List.length_append, List.length_map, List.length_cons]
    have hsq : (rest.length + 1) * (rest.length + 1) =
        rest.length * rest.length + 2 * rest.length + 1 := by ring
    rw [hsq]
    have hge : rest.length ≤ rest.length * rest.length := by
      by_cases h : rest.length = 0
      · rw [h]
      · exact Nat.le_mul_of_pos_left _ (Nat.pos_of_ne_zero h)
    omega

theorem outerLoop_allEmpty (uf : Nat) (fuel : Nat) (st : SatState)
    (h : ∀ c ∈ st.active, c.literals = []) :
    (∃ st2, outerLoop uf (fuel + 1) st = Outcome.timeout st2) ∨
    (∃ st2, outerLoop uf (fuel + 1) st = Outcome.saturated st2) := by
  rw [outerLoop]
  have hall : ∀ pr ∈ listPairs st.active, pr.1.literals = [] := by
    intro pr hpr
    exact h pr.1 (listPairs_mem st.active pr hpr).1
  rcases runPairs_allEmpty uf (listPairs st.active) st false hall with
    ⟨st2, h2⟩ | ⟨st2, h2, h3⟩
  · rw [h2]
    exact Or.inl ⟨st2, rfl⟩
  · rw [h2]
    right
    exact ⟨_, rfl⟩

/-!  # Claim theorems  -/

/-- C2: for every variable `x` and every function term containing `x`,
unification from the empty substitution fails at every recursion depth:
`unifyVar` rejects the binding by the occurs-check. -/
theorem claim_unify_occurs_check (fuel : Nat) (x fname : String) (args : List Term)
    (h : Term.containsVar x (Term.fn fname args) = true) :
    unify fuel (Term.var x) (Term.fn fname args) [] = Option.none :=
  unify_var_fn_occurs fuel x fname args h

/-- Witness for C2 at `unify(x, f(x), {})`. -/
theorem claim_unify_occurs_check_witness :
    Term.containsVar ("x") (Term.fn ("f") [Term.var ("x")]) = true ∧
    unify 5 (Term.var ("x")) (Term.fn ("f") [Term.var ("x")]) [] = Option.none :=
  ⟨rfl, claim_unify_occurs_check 5 ("x") ("f") [Term.var ("x")] rfl⟩

/-- C1: `Prove` returns `success = true` exactly when the saturation
run stopped on a derived resolvent (the `contradiction` outcome), and
that triggering clause always has an empty literal set. -/
theorem claim_prove_success_iff_empty (uf : Nat) (e : Engine) :
    ((Prove uf e).success = true ↔
      ∃ c st, proveOutcome uf e = Outcome.contradiction c st) ∧
    (∀ c st, proveOutcome uf e = Outcome.contradiction c st → c.literals = []) := by
  constructor
  · constructor
    · intro h
      rw [Prove] at h
      cases ho : proveOutcome uf e with
      | contradiction c st => exact ⟨c, st, rfl⟩
      | timeout st =>
        rw [ho] at h
        have h2 : (false : Bool) = true := h
        cases h2
      | saturated st =>
        rw [ho] at h
        have h2 : (false : Bool) = true := h
        cases h2
      | fuelOut st =>
        rw [ho] at h
        have h2 : (false : Bool) = true := h
        cases h2
    · rintro ⟨c, st, hc⟩
      rw [Prove, hc]
  · intro c st hc
    have hc2 : outerLoop uf (max_iterations + 2) (initState e) =
        Outcome.contradiction c st := hc
    have he := outerLoop_contra_empty uf (max_iterations + 2) (initState e) c st hc2
    rw [Clause.isEmpty] at he
    cases hl : c.literals with
    | nil => rfl
    | cons a l =>
      rw [hl] at he
      have h2 : (false : Bool) = true := he
      cases h2

/-- Witness for C1: a contradictory two-clause input succeeds and the
triggering resolvent is the empty clause. -/
theorem claim_prove_success_iff_empty_witness :
    ∃ c st, proveOutcome 4 (ParseInput [("P(a)"), ("¬P(a)")]) = Outcome.contradiction c st ∧
      c.literals = [] := by
  obtain ⟨c, st, hc⟩ :=
    (claim_prove_success_iff_empty 4 (ParseInput [("P(a)"), ("¬P(a)")])).1.mp rfl
  exact ⟨c, st, hc, (claim_prove_success_iff_empty 4 (ParseInput [("P(a)"), ("¬P(a)")])).2 c st hc⟩

/-- C3 counterexample: on 1001 unparseable input strings the first pass
exhausts the budget, and at that timeout return the check counter is
`max_iterations + 1 = 500001`, strictly above `max_iterations`; the
result is `success = false` with short log `TIMEOUT`. -/
theorem claim_checks_counterexample :
    ∃ st, proveOutcome 0 (ParseInput (List.replicate 1001 ("q"))) = Outcome.timeout st ∧
      st.processedChecks = max_iterations + 1 ∧
      max_iterations < st.processedChecks ∧
      (Prove 0 (ParseInput (List.replicate 1001 ("q")))).shortLog = ("TIMEOUT") := by
  have hemp : ∀ s ∈ List.replicate 1001 ("q"), parsePieces s = [] := by
    intro s hs
    rw [List.eq_of_mem_replicate hs]
    rfl
  have hactive : ∀ c ∈ (initState (ParseInput (List.replicate 1001 ("q")))).active,
      c.literals = [] := by
    intro c hcm
    exact parseInputAux_empty (List.replicate 1001 ("q")) 1 hemp c hcm
  have hlen : (initState (ParseInput (List.replicate 1001 ("q")))).active.length = 1001 := by
    have h2 := parseInputAux_length (List.replicate 1001 ("q")) 1
    rw [List.length_replicate] at h2
    exact h2
  have hplen : max_iterations <
      (listPairs (initState (ParseInput (List.replicate 1001 ("q")))).active).length := by
    have h2 := listPairs_len (initState (ParseInput (List.replicate 1001 ("q")))).active
    rw [hlen] at h2
    have h3 : (1001 : Nat) * 1001 - 1001 = 1001000 := by norm_num
    rw [h3] at h2
    rw [max_iterations]
    omega
  have hall : ∀ pr ∈ listPairs (initState (ParseInput (List.replicate 1001 ("q")))).active,
      pr.1.literals = [] := fun pr hpr =>
    hactive pr.1 (listPairs_mem _ pr hpr).1
  have hchecks0 : (initState (ParseInput (List.replicate 1001 ("q")))).processedChecks = 0 := rfl
  obtain ⟨q1, q2, q3, q4⟩ := runPairs_spec 0
    (listPairs (initState (ParseInput (List.replicate 1001 ("q")))).active)
    (initState (ParseInput (List.replicate 1001 ("q")))) false
  obtain ⟨r1, r2, r3⟩ := q3 (by rw [hchecks0]; exact Nat.zero_le _)
  rcases runPairs_allEmpty 0
      (listPairs (initState (ParseInput (List.replicate 1001 ("q")))).active)
      (initState (ParseInput (List.replicate 1001 ("q")))) false hall with
    ⟨st2, h2⟩ | ⟨st2, h2, h3⟩
  · have hto : proveOutcome 0 (ParseInput (List.replicate 1001 ("q"))) =
        Outcome.timeout st2 := by
      show outerLoop 0 (max_iterations + 1 + 1) (initState (ParseInput (List.replicate 1001 ("q")))) =
        Outcome.timeout st2
      rw [outerLoop, h2]
    have hcheq : st2.processedChecks = max_iterations + 1 := r1 st2 h2
    refine ⟨st2, hto, hcheq, by omega, ?_⟩
    rw [Prove, hto]
  · exfalso
    have hle := r2 st2 false h2
    rw [h3, hchecks0] at hle
    omega

/-- C3 amended: the check counter at the moment `Prove` returns is at
most `max_iterations + 1`; it equals `max_iterations + 1` exactly on
the budget-exhausted return (the code increments before comparing), and
stays at most `max_iterations` on every other return. -/
theorem claim_checks_amended (uf : Nat) (e : Engine) :
    (proveOutcome uf e).state.processedChecks ≤ max_iterations + 1 ∧
    (∀ st, proveOutcome uf e = Outcome.timeout st →
      st.processedChecks = max_iterations + 1) ∧
    (∀ c st, proveOutcome uf e = Outcome.contradiction c st →
      st.processedChecks ≤ max_iterations) ∧
    (∀ st, proveOutcome uf e = Outcome.saturated st →
      st.processedChecks ≤ max_iterations) := by
  have h0 : (initState e).processedChecks ≤ max_iterations := Nat.zero_le _
  obtain ⟨t1, t2, t3, t4⟩ := outerLoop_checks uf (max_iterations + 2) (initState e) h0
  refine ⟨?_, t1, t2, t3⟩
  cases ho : proveOutcome uf e with
  | contradiction c st =>
    have := t2 c st ho
    simp only [Outcome.state]
    omega
  | timeout st =>
    have := t1 st ho
    simp only [Outcome.state]
    omega
  | saturated st =>
    have := t3 st ho
    simp only [Outcome.state]
    omega
  | fuelOut st =>
    have := t4 st ho
    simp only [Outcome.state]
    omega

/-- Witness for the amended C3 at a concrete one-clause input. -/
theorem claim_checks_amended_witness :
    (proveOutcome 0 (ParseInput [("q")])).state.processedChecks ≤ max_iterations + 1 :=
  (claim_checks_amended 0 (ParseInput [("q")])).1

/-- C5: over a whole run from any input, the allocation log has
strictly increasing ids (so no two allocated clauses share an id), and
every allocated `res` clause's two parents have strictly smaller ids
than its own. -/
theorem claim_ids_monotone (uf : Nat) (inputs : List String) :
    (((proveOutcome uf (ParseInput inputs)).state.alloc.map Clause.id).Pairwise (· < ·)) ∧
    (∀ c ∈ (proveOutcome uf (ParseInput inputs)).state.alloc,
      c.origin = ("res") → ∀ p q : Clause, c.parentsOf = Parents.pair p q →
        p.id < c.id ∧ q.id < c.id) := by
  have hinv := outerLoop_inv uf (max_iterations + 2) (initState (ParseInput inputs))
    (parseInput_engineInv inputs)
  exact ⟨hinv.2.1, fun c hc _ p q hpq => hinv.2.2.2.1 c hc p q hpq⟩

/-- Witness for C5 on a run whose third allocated clause is a
resolvent of the first two. -/
theorem claim_ids_monotone_witness :
    (((proveOutcome 3 (ParseInput [("P(a)"), ("¬P(a)")])).state.alloc.map
      Clause.id).Pairwise (· < ·)) ∧
    (Clause.mk 1 [Literal.mk ("P") [Term.var ("a")] false] ("init") (Parents.none) ("")).id <
      (Clause.mk 3 [] ("res")
        (Parents.pair
          (Clause.mk 1 [Literal.mk ("P") [Term.var ("a")] false] ("init") (Parents.none) (""))
          (Clause.mk 2 [Literal.mk ("P") [Term.var ("a")] true] ("init") (Parents.none) ("")))
        ("Унификация (пустая)")).id := by
  obtain ⟨h1, h2⟩ := claim_ids_monotone 3 [("P(a)"), ("¬P(a)")]
  refine ⟨h1, ?_⟩
  have halloc : (proveOutcome 3 (ParseInput [("P(a)"), ("¬P(a)")])).state.alloc =
    [Clause.mk 1 [Literal.mk ("P") [Term.var ("a")] false] ("init") (Parents.none) (""),
     Clause.mk 2 [Literal.mk ("P") [Term.var ("a")] true] ("init") (Parents.none) (""),
     Clause.mk 3 [] ("res")
       (Parents.pair
         (Clause.mk 1 [Literal.mk ("P") [Term.var ("a")] false] ("init") (Parents.none) (""))
         (Clause.mk 2 [Literal.mk ("P") [Term.var ("a")] true] ("init") (Parents.none) ("")))
       ("Унификация (пустая)")] := rfl
  have hmem : (Clause.mk 3 [] ("res")
      (Parents.pair
        (Clause.mk 1 [Literal.mk ("P") [Term.var ("a")] false] ("init") (Parents.none) (""))
        (Clause.mk 2 [Literal.mk ("P") [Term.var ("a")] true] ("init") (Parents.none) ("")))
      ("Унификация (пустая)")) ∈
      (proveOutcome 3 (ParseInput [("P(a)"), ("¬P(a)")])).state.alloc := by
    rw [halloc]
    exact List.mem_cons_of_mem _ (List.mem_cons_of_mem _ (List.mem_cons_self _ _))
  exact (h2 _ hmem rfl _ _ rfl).1

/-- C6: every clause built by the `NewClause` constructor has a literal
list that is strictly ascending in literal stringification (hence free
of string duplicates), and so does every clause the engine allocates
during any run (initial and resolved). -/
theorem claim_clause_canonical (uf : Nat) (inputs : List String)
    (i : Nat) (ls : List Literal) (o : String) (ps : Parents) (r : String) :
    CanonLits (NewClause i ls o ps r) ∧
    (∀ c ∈ (proveOutcome uf (ParseInput inputs)).state.alloc, CanonLits c) := by
  refine ⟨NewClause_canonLits i ls o ps r, ?_⟩
  have hinv := outerLoop_inv uf (max_iterations + 2) (initState (ParseInput inputs))
    (parseInput_engineInv inputs)
  exact hinv.2.2.2.2

/-- Witness for C6 at a duplicated, unsorted literal list and at a
concrete run. -/
theorem claim_clause_canonical_witness :
    CanonLits (NewClause 7
      [Literal.mk ("Q") [Term.var ("x")] true,
       Literal.mk ("P") [Term.var ("x")] false,
       Literal.mk ("Q") [Term.var ("x")] true]
      ("init") (Parents.none) ("")) ∧
    CanonLits (Clause.mk 1 [Literal.mk ("P") [Term.var ("a")] false]
      ("init") (Parents.none) ("")) := by
  constructor
  · exact (claim_clause_canonical 0 [] 7
      [Literal.mk ("Q") [Term.var ("x")] true,
       Literal.mk ("P") [Term.var ("x")] false,
       Literal.mk ("Q") [Term.var ("x")] true]
      ("init") (Parents.none) ("")).1
  · have halloc : (proveOutcome 0 (ParseInput [("P(a)")])).state.alloc =
      [Clause.mk 1 [Literal.mk ("P") [Term.var ("a")] false]
        ("init") (Parents.none) ("")] := rfl
    refine (claim_clause_canonical 0 [("P(a)")] 0 [] ("") (Parents.none) ("")).2 _ ?_
    rw [halloc]
    exact List.mem_cons_self _ _

/-- C10: when no piece of any input string parses to a literal, every
input still yields an initial clause with an empty literal set and
origin `init`, and `prove` on such an input returns `success = false`
(emptiness is only detected on resolvents, never on initial clauses);
a string without parentheses never parses. -/
theorem claim_unparseable_empty_clause (uf : Nat) (inputs : List String)
    (h : ∀ s ∈ inputs, parsePieces s = []) :
    (∀ c ∈ (ParseInput inputs).clauses, c.literals = [] ∧ c.origin = ("init")) ∧
    (ParseInput inputs).clauses.length = inputs.length ∧
    (runProver uf inputs).success = false ∧
    (∀ s : List Char, firstIdxOf '(' (trimChars s) = Option.none →
      parseLiteralString s = (("") , [])) := by
  refine ⟨?_, ?_, ?_, ?_⟩
  · intro c hcm
    obtain ⟨cs, ctr2, heq, hc, hpw, hmem⟩ := parseInputAux_spec inputs 1
    have hcm2 : c ∈ (parseInputAux inputs 1).1 := hcm
    constructor
    · exact parseInputAux_empty inputs 1 h c hcm2
    · rw [heq] at hcm2
      exact (hmem c hcm2).2.2.1
  · exact parseInputAux_length inputs 1
  · have hactive : ∀ c ∈ (initState (ParseInput inputs)).active, c.literals = [] := by
      intro c hcm
      exact parseInputAux_empty inputs 1 h c hcm
    rcases outerLoop_allEmpty uf (max_iterations + 1) (initState (ParseInput inputs))
        hactive with ⟨st, hto⟩ | ⟨st, hsat⟩
    · have h2 : proveOutcome uf (ParseInput inputs) = Outcome.timeout st := hto
      rw [runProver, Prove, h2]
    · have h2 : proveOutcome uf (ParseInput inputs) = Outcome.saturated st := hsat
      rw [runProver, Prove, h2]
  · intro s hs
    rw [parseLiteralString]
    simp only [hs]

/-- Witness for C10 at the parenthesis-free input `hello`. -/
theorem claim_unparseable_empty_clause_witness :
    (∀ c ∈ (ParseInput [("hello")]).clauses, c.literals = [] ∧ c.origin = ("init")) ∧
    (ParseInput [("hello")]).clauses.length = 1 ∧
    (runProver 1 [("hello")]).success = false := by
  have hyp : ∀ s ∈ [("hello" : String)], parsePieces s = [] := by
    intro s hs
    rw [List.mem_singleton.mp hs]
    rfl
  obtain ⟨h1, h2, h3, h4⟩ := claim_unparseable_empty_clause 1 [("hello")] hyp
  exact ⟨h1, h2, h3⟩

/-- C7: the nested-function input parses to exactly one initial clause
with two literals (stored in ascending stringification order, so the
positive one first), each with two top-level arguments; the argument
`f(g(x), a)` is a function term whose first sub-term `g(x)` is a
function term applied to the variable `x`. -/
theorem claim_parser_nested :
    (ParseInput [("¬R(f(g(x), a), y) ∨ R(y, f(g(x), a))")]).clauses =
      [Clause.mk 1
        [Literal.mk ("R") [Term.var ("y"),
           Term.fn ("f") [Term.fn ("g") [Term.var ("x")], Term.var ("a")]] false,
         Literal.mk ("R") [Term.fn ("f") [Term.fn ("g") [Term.var ("x")], Term.var ("a")],
           Term.var ("y")] true]
        ("init") (Parents.none) ("")] ∧
    (ParseInput [("¬R(f(g(x), a), y) ∨ R(y, f(g(x), a))")]).clauses.length = 1 ∧
    (∀ c ∈ (ParseInput [("¬R(f(g(x), a), y) ∨ R(y, f(g(x), a))")]).clauses,
      c.literals.length = 2 ∧ ∀ l ∈ c.literals, l.args.length = 2) ∧
    parseTerm (("f(g(x), a)").data) =
      Term.fn ("f") [Term.fn ("g") [Term.var ("x")], Term.var ("a")] := by
  refine ⟨rfl, rfl, ?_, rfl⟩
  have hcl : (ParseInput [("¬R(f(g(x), a), y) ∨ R(y, f(g(x), a))")]).clauses =
      [Clause.mk 1
        [Literal.mk ("R") [Term.var ("y"),
           Term.fn ("f") [Term.fn ("g") [Term.var ("x")], Term.var ("a")]] false,
         Literal.mk ("R") [Term.fn ("f") [Term.fn ("g") [Term.var ("x")], Term.var ("a")],
           Term.var ("y")] true]
        ("init") (Parents.none) ("")] := rfl
  rw [hcl]
  intro c hc
  rw [List.mem_singleton.mp hc]
  refine ⟨rfl, ?_⟩
  intro l hl
  rcases List.mem_cons.mp hl with hl | hl
  · rw [hl]
    rfl
  · rw [List.mem_singleton.mp hl]
    rfl

/-- Total-order facts for the string comparator used by
`formatTheta`'s `sort.Strings`. -/
theorem strLe_total : ∀ a b : String,
    (!(strLt b a)) = false → (!(strLt a b)) = true := by
  intro a b h
  cases hba : strLt b a with
  | false => rw [hba] at h; cases h
  | true =>
    rw [strLt] at hba ⊢
    rw [charListLt_asymm _ _ hba]
    rfl

theorem strLe_trans : ∀ a b c : String,
    (!(strLt b a)) = true → (!(strLt c b)) = true → (!(strLt c a)) = true := by
  intro a b c h1 h2
  cases hba : strLt b a with
  | true => rw [hba] at h1; cases h1
  | false =>
    cases hcb : strLt c b with
    | true => rw [hcb] at h2; cases h2
    | false =>
      rw [strLt] at hba hcb
      rw [strLt, charListLt_not_trans hba hcb]
      rfl

theorem strLe_antisymm : ∀ a b : String,
    (!(strLt b a)) = true → (!(strLt a b)) = true → a = b := by
  intro a b h1 h2
  have hba : strLt b a = false := by
    cases h : strLt b a with
    | false => rfl
    | true => rw [h] at h1; cases h1
  have hab : strLt a b = false := by
    cases h : strLt a b with
    | false => rfl
    | true => rw [h] at h2; cases h2
  exact strLt_conn hab hba

/-- `formatTheta` is invariant under permutation of the binding list:
the lexicographic sort canonicalizes whatever iteration order the Go
map produces. -/
theorem formatTheta_perm (th1 th2 : Theta) (hperm : th1.Perm th2) :
    formatTheta th1 = formatTheta th2 := by
  cases th1 with
  | nil =>
    rw [hperm.symm.eq_nil]
  | cons kv rest =>
    cases th2 with
    | nil =>
      exact absurd hperm.eq_nil (by intro hc; cases hc)
    | cons kv2 rest2 =>
      have hu1 : formatTheta (kv :: rest) = strJoin (", ")
          (sortBy (fun a b => !(strLt b a))
            ((kv :: rest).map fun p => p.2.str ++ ("/") ++ p.1)) := rfl
      have hu2 : formatTheta (kv2 :: rest2) = strJoin (", ")
          (sortBy (fun a b => !(strLt b a))
            ((kv2 :: rest2).map fun p => p.2.str ++ ("/") ++ p.1)) := rfl
      rw [hu1, hu2]
      have hpp : ((kv :: rest).map fun p => p.2.str ++ ("/") ++ p.1).Perm
          ((kv2 :: rest2).map fun p => p.2.str ++ ("/") ++ p.1) := hperm.map _
      have hs1 := sortBy_pairwise (fun a b : String => !(strLt b a)) strLe_total strLe_trans
        ((kv :: rest).map fun p => p.2.str ++ ("/") ++ p.1)
      have hs2 := sortBy_pairwise (fun a b : String => !(strLt b a)) strLe_total strLe_trans
        ((kv2 :: rest2).map fun p => p.2.str ++ ("/") ++ p.1)
      have hsp : (sortBy (fun a b : String => !(strLt b a))
          ((kv :: rest).map fun p => p.2.str ++ ("/") ++ p.1)).Perm
          (sortBy (fun a b : String => !(strLt b a))
            ((kv2 :: rest2).map fun p => p.2.str ++ ("/") ++ p.1)) :=
        ((sortBy_perm _ _).trans hpp).trans (sortBy_perm _ _).symm
      have heq := @List.eq_of_perm_of_sorted String
        (fun a b => (!(strLt b a)) = true) ⟨fun a b ha hb => strLe_antisymm a b ha hb⟩
        _ _ hsp hs1 hs2
      rw [heq]

/-- C9: for a fixed input list the whole run — parse then prove — is a
function of the input (two runs agree on success flag and both log
texts), and the rule text is independent of the order in which the
substitution's bindings are enumerated, because `formatTheta` sorts
them. -/
theorem claim_prove_deterministic (uf : Nat) :
    (∀ xs ys : List String, xs = ys → runProver uf xs = runProver uf ys) ∧
    (∀ th1 th2 : Theta, th1.Perm th2 →
      ruleText th1 = ruleText th2 ∧ formatTheta th1 = formatTheta th2) := by
  constructor
  · intro xs ys h
    rw [h]
  · intro th1 th2 hperm
    have h := formatTheta_perm th1 th2 hperm
    constructor
    · rw [ruleText, ruleText, h]
    · exact h

/-- Witness for C9: equal inputs give equal results, and two
enumeration orders of the same two bindings give the same rule text. -/
theorem claim_prove_deterministic_witness :
    runProver 2 [("P(a)")] = runProver 2 [("P(a)")] ∧
    ruleText [(("x"), Term.var ("y")), (("z"), Term.const ("b"))] =
      ruleText [(("z"), Term.const ("b")), (("x"), Term.var ("y"))] := by
  obtain ⟨h1, h2⟩ := claim_prove_deterministic 2
  refine ⟨h1 [("P(a)")] [("P(a)")] rfl, ?_⟩
  exact (h2 [(("x"), Term.var ("y")), (("z"), Term.const ("b"))]
    [(("z"), Term.const ("b")), (("x"), Term.var ("y"))]
    (List.Perm.swap _ _ _)).1

/-!  ## Termination of the substitution walk (C8)  -/

theorem applyThetaToTermSafe_const (n : String) (theta : Theta) (v : List String) :
    applyThetaToTermSafe (Term.const n) theta v = Term.const n := by
  rw [applyThetaToTermSafe]

theorem applyThetaToTermSafe_fn (n : String) (args : List Term) (theta : Theta)
    (v : List String) :
    applyThetaToTermSafe (Term.fn n args) theta v =
    Term.fn n (args.map fun a => applyThetaToTermSafe a theta v) := by
  rw [applyThetaToTermSafe]
  simp

theorem applyThetaToTermSafe_var_visited (n : String) (theta : Theta)
    (v : List String) (hv : v.contains n = true) :
    applyThetaToTermSafe (Term.var n) theta v = Term.var n := by
  rw [applyThetaToTermSafe, dif_pos hv]

theorem applyThetaToTermSafe_var_bound (n : String) (val : Term) (theta : Theta)
    (v : List String) (hv : v.contains n = false)
    (hl : thetaLookup theta n = some val) :
    applyThetaToTermSafe (Term.var n) theta v =
    applyThetaToTermSafe val theta (n :: v) := by
  rw [applyThetaToTermSafe, dif_neg (by rw [hv]; exact Bool.false_ne_true)]
  split
  · rename_i val2 heq
    rw [hl] at heq
    cases heq
    rfl
  · rename_i heq
    rw [hl] at heq
    cases heq

theorem applyThetaToTermSafe_var_free (n : String) (theta : Theta)
    (v : List String) (hv : v.contains n = false)
    (hl : thetaLookup theta n = Option.none) :
    applyThetaToTermSafe (Term.var n) theta v = Term.var n := by
  rw [applyThetaToTermSafe, dif_neg (by rw [hv]; exact Bool.false_ne_true)]
  split
  · rename_i val2 heq
    rw [hl] at heq
    cases heq
  · rfl

theorem applyThetaFuel_var (f : Nat) (n : String) (theta : Theta) (v : List String) :
    applyThetaFuel (f + 1) (Term.var n) theta v =
    (if v.contains n then some (Term.var n)
     else
       match thetaLookup theta n with
       | some val => applyThetaFuel f val theta (n :: v)
       | Option.none => some (Term.var n)) := rfl

theorem applyThetaFuel_fn (f : Nat) (n : String) (args : List Term) (theta : Theta)
    (v : List String) :
    applyThetaFuel (f + 1) (Term.fn n args) theta v =
    (match allSome (args.map fun a => applyThetaFuel f a theta v) with
     | some newArgs => some (Term.fn n newArgs)
     | Option.none => Option.none) := rfl

theorem applyThetaFuel_mono : ∀ (f : Nat),
    (∀ (t : Term) (theta : Theta) (v : List String) (r : Term),
      applyThetaFuel f t theta v = some r → applyThetaFuel (f + 1) t theta v = some r) ∧
    (∀ (l : List Term) (theta : Theta) (v : List String) (rl : List Term),
      allSome (l.map fun a => applyThetaFuel f a theta v) = some rl →
      allSome (l.map fun a => applyThetaFuel (f + 1) a theta v) = some rl) := by
  intro f
  induction f with
  | zero =>
    constructor
    · intro t theta v r h
      cases h
    · intro l theta v rl h
      cases l with
      | nil => exact h
      | cons a as =>
        rw [List.map_cons] at h
        have h0 : applyThetaFuel 0 a theta v = Option.none := rfl
        rw [h0] at h
        cases h
  | succ f ih =>
    have hterm : ∀ (t : Term) (theta : Theta) (v : List String) (r : Term),
        applyThetaFuel (f + 1) t theta v = some r →
        applyThetaFuel (f + 1 + 1) t theta v = some r := by
      intro t theta v r h
      cases t with
      | var n =>
        rw [applyThetaFuel_var] at h ⊢
        cases hv : v.contains n with
        | true =>
          rw [hv] at h
          rw [if_pos rfl] at h ⊢
          exact h
        | false =>
          rw [hv] at h
          rw [if_neg Bool.false_ne_true] at h ⊢
          cases hl : thetaLookup theta n with
          | none =>
            rw [hl] at h
            simp only [hl]
            exact h
          | some val =>
            rw [hl] at h
            simp only [hl]
            exact ih.1 val theta (n :: v) r h
      | const n => exact h
      | fn n args =>
        rw [applyThetaFuel_fn] at h ⊢
        cases hs : allSome (args.map fun a => applyThetaFuel f a theta v) with
        | none =>
          rw [hs] at h
          cases h
        | some newArgs =>
          rw [hs] at h
          rw [ih.2 args theta v newArgs hs]
          exact h
    refine ⟨hterm, ?_⟩
    intro l
    induction l with
    | nil => intro theta v rl h; exact h
    | cons a as ihl =>
      intro theta v rl h
      rw [List.map_cons] at h ⊢
      cases ha : applyThetaFuel (f + 1) a theta v with
      | none =>
        rw [ha] at h
        cases h
      | some ra =>
        rw [ha] at h
        rw [hterm a theta v ra ha]
        rw [allSome] at h ⊢
        cases hs : allSome (as.map fun a => applyThetaFuel (f + 1) a theta v) with
        | none => rw [hs] at h; cases h
        | some rest =>
          rw [hs] at h
          rw [ihl theta v rest hs]
          exact h

theorem applyThetaFuel_mono_le : ∀ (f g : Nat), f ≤ g →
    ∀ (t : Term) (theta : Theta) (v : List String) (r : Term),
    applyThetaFuel f t theta v = some r → applyThetaFuel g t theta v = some r := by
  intro f g hle
  induction g with
  | zero =>
    intro t theta v r h
    have h0 : f = 0 := by omega
    rw [h0] at h
    exact h
  | succ g ihg =>
    intro t theta v r h
    by_cases hfg : f = g + 1
    · rw [hfg] at h
      exact h
    · have h2 : f ≤ g := by omega
      exact (applyThetaFuel_mono g).1 t theta v r (ihg h2 t theta v r h)

theorem allSome_mono_le : ∀ (f g : Nat), f ≤ g →
    ∀ (l : List Term) (theta : Theta) (v : List String) (rl : List Term),
    allSome (l.map fun a => applyThetaFuel f a theta v) = some rl →
    allSome (l.map fun a => applyThetaFuel g a theta v) = some rl := by
  intro f g hle l
  induction l with
  | nil => intro theta v rl h; exact h
  | cons a as ihl =>
    intro theta v rl h
    rw [List.map_cons] at h ⊢
    cases ha : applyThetaFuel f a theta v with
    | none => rw [ha] at h; cases h
    | some ra =>
      rw [ha] at h
      rw [applyThetaFuel_mono_le f g hle a theta v ra ha]
      rw [allSome] at h ⊢
      cases hs : allSome (as.map fun a => applyThetaFuel f a theta v) with
      | none => rw [hs] at h; cases h
      | some rest =>
        rw [hs] at h
        rw [ihl theta v rest hs]
        exact h

theorem thetaCount_cons_lt {theta : Theta} {v : List String} {n : String} {val : Term}
    (hv : v.contains n = false) (hl : thetaLookup theta n = some val) :
    thetaCount theta (n :: v) < thetaCount theta v :=
  filter_theta_dec val (thetaLookup_mem hl) hv

theorem applyThetaFuel_exists_aux (theta : Theta) (v : List String)
    (hvar : ∀ n : String, ∃ f r, applyThetaFuel f (Term.var n) theta v = some r ∧
      r = applyThetaToTermSafe (Term.var n) theta v) :
    (∀ t : Term, ∃ f r, applyThetaFuel f t theta v = some r ∧
      r = applyThetaToTermSafe t theta v) ∧
    (∀ l : List Term, ∃ f rl,
      allSome (l.map fun a => applyThetaFuel f a theta v) = some rl ∧
      rl = l.map fun a => applyThetaToTermSafe a theta v) := by
  have hlist : ∀ l : List Term,
      (∀ a ∈ l, ∃ f r, applyThetaFuel f a theta v = some r ∧
        r = applyThetaToTermSafe a theta v) →
      ∃ f rl, allSome (l.map fun a => applyThetaFuel f a theta v) = some rl ∧
        rl = l.map fun a => applyThetaToTermSafe a theta v := by
    intro l
    induction l with
    | nil => intro _; exact ⟨1, [], rfl, rfl⟩
    | cons a as ihl =>
      intro hall
      obtain ⟨fa, ra, hfa, hra⟩ := hall a (List.mem_cons_self _ _)
      obtain ⟨fs, rs, hfs, hrs⟩ := ihl fun b hb => hall b (List.mem_cons_of_mem _ hb)
      refine ⟨max fa fs, ra :: rs, ?_, ?_⟩
      · rw [List.map_cons]
        rw [applyThetaFuel_mono_le fa (max fa fs) (le_max_left _ _) a theta v ra hfa]
        rw [allSome]
        rw [allSome_mono_le fs (max fa fs) (le_max_right _ _) as theta v rs hfs]
      · rw [List.map_cons, hra, hrs]
  have hterm : ∀ t : Term, ∃ f r, applyThetaFuel f t theta v = some r ∧
      r = applyThetaToTermSafe t theta v :=
    @Term.rec
      (fun t => ∃ f r, applyThetaFuel f t theta v = some r ∧
        r = applyThetaToTermSafe t theta v)
      (fun l => ∀ a ∈ l, ∃ f r, applyThetaFuel f a theta v = some r ∧
        r = applyThetaToTermSafe a theta v)
      (fun n => hvar n)
      (fun n => ⟨1, Term.const n, rfl, (applyThetaToTermSafe_const n theta v).symm⟩)
      (fun n args iha => by
        obtain ⟨f, rl, hf, hrl⟩ := hlist args iha
        refine ⟨f + 1, Term.fn n rl, ?_, ?_⟩
        · rw [applyThetaFuel_fn, hf]
        · rw [applyThetaToTermSafe_fn, hrl])
      (fun b hb => absurd hb (List.not_mem_nil b))
      (fun a as iha ihas b hb => by
        rcases List.mem_cons.mp hb with hb | hb
        · rw [hb]; exact iha
        · exact ihas b hb)
  exact ⟨hterm, fun l => hlist l fun a _ => hterm a⟩

theorem applyThetaFuel_exists : ∀ (k : Nat) (theta : Theta) (v : List String),
    thetaCount theta v ≤ k →
    ∀ t : Term, ∃ f r, applyThetaFuel f t theta v = some r ∧
      r = applyThetaToTermSafe t theta v := by
  intro k
  induction k with
  | zero =>
    intro theta v hk
    refine (applyThetaFuel_exists_aux theta v ?_).1
    intro n
    cases hv : v.contains n with
    | true =>
      refine ⟨1, Term.var n, ?_, (applyThetaToTermSafe_var_visited n theta v hv).symm⟩
      rw [applyThetaFuel_var, if_pos (by rw [hv])]
    | false =>
      cases hl : thetaLookup theta n with
      | none =>
        refine ⟨1, Term.var n, ?_, (applyThetaToTermSafe_var_free n theta v hv hl).symm⟩
        rw [applyThetaFuel_var, if_neg (by rw [hv]; exact Bool.false_ne_true)]
        simp only [hl]
      | some val =>
        exfalso
        have := thetaCount_cons_lt hv hl
        omega
  | succ k ihk =>
    intro theta v hk
    refine (applyThetaFuel_exists_aux theta v ?_).1
    intro n
    cases hv : v.contains n with
    | true =>
      refine ⟨1, Term.var n, ?_, (applyThetaToTermSafe_var_visited n theta v hv).symm⟩
      rw [applyThetaFuel_var, if_pos (by rw [hv])]
    | false =>
      cases hl : thetaLookup theta n with
      | none =>
        refine ⟨1, Term.var n, ?_, (applyThetaToTermSafe_var_free n theta v hv hl).symm⟩
        rw [applyThetaFuel_var, if_neg (by rw [hv]; exact Bool.false_ne_true)]
        simp only [hl]
      | some val =>
        have hcount : thetaCount theta (n :: v) ≤ k := by
          have := thetaCount_cons_lt hv hl
          omega
        obtain ⟨f, r, hf, hr⟩ := ihk theta (n :: v) hcount val
        refine ⟨f + 1, r, ?_, ?_⟩
        · rw [applyThetaFuel_var, if_neg (by rw [hv]; exact Bool.false_ne_true)]
          simp only [hl]
          exact hf
        · rw [applyThetaToTermSafe_var_bound n val theta v hv hl]
          exact hr

/-- C8: the substitution walk terminates for every literal argument and
every finite substitution, cyclic bindings included: for every term,
theta and visited set there is a recursion depth at which the raw
recursion (`applyThetaFuel`, mirroring `applyThetaToTermSafe` call for
call) completes, and it returns the value of the total model.  The
visited set stops the cyclic walks `{x ↦ f(x)}` and `{x ↦ y, y ↦ x}`,
variable chains are followed (`{x ↦ y, y ↦ a}` gives `a`), function
terms are rewritten recursively and constants are returned unchanged. -/
theorem claim_substitute_total :
    (∀ (t : Term) (theta : Theta) (visited : List String),
      ∃ f r, applyThetaFuel f t theta visited = some r ∧
        r = applyThetaToTermSafe t theta visited) ∧
    (substitute (Literal.mk ("P") [Term.var ("x")] false)
      [(("x"), Term.fn ("f") [Term.var ("x")])] =
      Literal.mk ("P") [Term.fn ("f") [Term.var ("x")]] false) ∧
    (substitute (Literal.mk ("P") [Term.var ("x")] false)
      [(("x"), Term.var ("y")), (("y"), Term.var ("x"))] =
      Literal.mk ("P") [Term.var ("x")] false) ∧
    (substitute (Literal.mk ("P") [Term.var ("x")] false)
      [(("x"), Term.var ("y")), (("y"), Term.var ("a"))] =
      Literal.mk ("P") [Term.var ("a")] false) ∧
    (∀ (n : String) (theta : Theta) (visited : List String),
      applyThetaToTermSafe (Term.const n) theta visited = Term.const n) ∧
    (∀ (n : String) (args : List Term) (theta : Theta) (visited : List String),
      applyThetaToTermSafe (Term.fn n args) theta visited =
        Term.fn n (args.map fun a => applyThetaToTermSafe a theta visited)) := by
  refine ⟨?_, ?_, ?_, ?_, applyThetaToTermSafe_const, applyThetaToTermSafe_fn⟩
  · intro t theta visited
    exact applyThetaFuel_exists (thetaCount theta visited) theta visited (le_refl _) t
  · simp [substitute, applyThetaToTermSafe, thetaLookup]
  · simp [substitute, applyThetaToTermSafe, thetaLookup]
  · simp [substitute, applyThetaToTermSafe, thetaLookup]

/-!  ## C4: the proof chain visits each id once, parents before children  -/

/-- Every clause is reachable from itself. -/
theorem subC_self : ∀ c : Clause, c ∈ subC c := by
  intro c
  cases c with
  | mk i lits orig ps rule => rw [subC]; exact List.mem_cons_self _ _

/-- Reachability through parent pointers is transitive. -/
theorem subC_trans :
    ∀ root : Clause, ∀ c ∈ subC root, ∀ d ∈ subC c, d ∈ subC root :=
  @Clause.rec
    (fun root => ∀ c ∈ subC root, ∀ d ∈ subC c, d ∈ subC root)
    (fun ps => ∀ c ∈ subP ps, ∀ d ∈ subC c, d ∈ subP ps)
    (fun i lits orig ps rule ih => by
      intro c hc d hd
      rw [subC] at hc ⊢
      rcases List.mem_cons.mp hc with h | h
      · subst h
        rw [subC] at hd
        exact hd
      · exact List.mem_cons_of_mem _ (ih c h d hd))
    (by
      intro c hc
      rw [subP] at hc
      cases hc)
    (fun p1 p2 ih1 ih2 => by
      intro c hc d hd
      rw [subP] at hc ⊢
      rcases List.mem_append.mp hc with h | h
      · exact List.mem_append.mpr (Or.inl (ih1 c h d hd))
      · exact List.mem_append.mpr (Or.inr (ih2 c h d hd)))

/-- Both members of a parent pair are reachable from their child. -/
theorem parents_mem_subC : ∀ c p q : Clause, c.parentsOf = Parents.pair p q →
    p ∈ subC c ∧ q ∈ subC c := by
  intro c p q h
  cases c with
  | mk i lits orig ps rule =>
    rw [Clause.parentsOf] at h
    subst h
    rw [subC, subP]
    constructor
    · exact List.mem_cons_of_mem _ (List.mem_append.mpr (Or.inl (subC_self p)))
    · exact List.mem_cons_of_mem _ (List.mem_append.mpr (Or.inr (subC_self q)))

/-- Below a well-formed root, ids never grow along parent pointers. -/
theorem subC_id_le :
    ∀ c root : Clause, WfDag root → c ∈ subC root → ∀ d ∈ subC c, d.id ≤ c.id :=
  @Clause.rec
    (fun c => ∀ root : Clause, WfDag root → c ∈ subC root →
      ∀ d ∈ subC c, d.id ≤ c.id)
    (fun ps => ∀ (root holder : Clause), WfDag root → holder ∈ subC root →
      holder.parentsOf = ps → ∀ d ∈ subP ps, d.id < holder.id)
    (fun i lits orig ps rule ih => by
      intro root hwf hmem d hd
      rw [subC] at hd
      rcases List.mem_cons.mp hd with h | h
      · subst h
        exact le_refl _
      · exact le_of_lt (ih root (Clause.mk i lits orig ps rule) hwf hmem rfl d h))
    (by
      intro root holder hwf hmem hps d hd
      rw [subP] at hd
      cases hd)
    (fun p1 p2 ih1 ih2 => by
      intro root holder hwf hmem hps d hd
      have hlt := hwf.2 holder hmem p1 p2 hps
      have hpm := parents_mem_subC holder p1 p2 hps
      have hp1r : p1 ∈ subC root := subC_trans root holder hmem p1 hpm.1
      have hp2r : p2 ∈ subC root := subC_trans root holder hmem p2 hpm.2
      rw [subP] at hd
      rcases List.mem_append.mp hd with h | h
      · exact lt_of_le_of_lt (ih1 root hwf hp1r d h) hlt.1
      · exact lt_of_le_of_lt (ih2 root hwf hp2r d h) hlt.2)

/-- Below a well-formed root, every clause reachable through a parent
array has a strictly smaller id than the clause holding the array. -/
theorem subP_id_lt (root c : Clause) (hwf : WfDag root) (hmem : c ∈ subC root) :
    ∀ d ∈ subP c.parentsOf, d.id < c.id := by
  intro d hd
  cases hps : c.parentsOf with
  | none =>
    rw [hps, subP] at hd
    cases hd
  | pair p q =>
    rw [hps, subP] at hd
    have hlt := hwf.2 c hmem p q hps
    have hpm := parents_mem_subC c p q hps
    rcases List.mem_append.mp hd with h | h
    · exact lt_of_le_of_lt
        (subC_id_le p root hwf (subC_trans root c hmem p hpm.1) d h) hlt.1
    · exact lt_of_le_of_lt
        (subC_id_le q root hwf (subC_trans root c hmem q hpm.2) d h) hlt.2

/-- Appending a clause whose parents (when it carries a resolution
parent pair) already sit in the chain preserves the ordering. -/
theorem chainOrdered_append (ch : List Clause) (c : Clause)
    (hch : ChainOrdered ch)
    (hc : c.origin = ("res") → ∀ p q : Clause,
      c.parentsOf = Parents.pair p q → p ∈ ch ∧ q ∈ ch) :
    ChainOrdered (ch ++ [c]) := by
  intro k d hk hres p q hpq
  by_cases hlt : k < ch.length
  · rw [List.getElem?_append_left hlt] at hk
    rcases hch k d hk hres p q hpq with ⟨⟨i, hi, hip⟩, ⟨j, hj, hjq⟩⟩
    have hil : i < ch.length := lt_trans hi hlt
    have hjl : j < ch.length := lt_trans hj hlt
    exact ⟨⟨i, hi, by rw [List.getElem?_append_left hil]; exact hip⟩,
           ⟨j, hj, by rw [List.getElem?_append_left hjl]; exact hjq⟩⟩
  · have hlen : k < ch.length + 1 := by
      rcases List.getElem?_eq_some.mp hk with ⟨hb, _⟩
      simpa using hb
    have hkl : k = ch.length := by omega
    subst hkl
    rw [List.getElem?_concat_length] at hk
    have hdc : d = c := (Option.some_inj.mp hk).symm
    subst hdc
    rcases hc hres p q hpq with ⟨hp, hq⟩
    rcases List.getElem?_of_mem hp with ⟨i, hip⟩
    rcases List.getElem?_of_mem hq with ⟨j, hjq⟩
    have hil : i < ch.length := (List.getElem?_eq_some.mp hip).1
    have hjl : j < ch.length := (List.getElem?_eq_some.mp hjq).1
    exact ⟨⟨i, hil, by rw [List.getElem?_append_left hil]; exact hip⟩,
           ⟨j, hjl, by rw [List.getElem?_append_left hjl]; exact hjq⟩⟩
/-- The frame facts hold for every `collect` call: proved for clauses
and parent arrays simultaneously over the mutual recursion. -/
theorem collect_frame : (∀ c : Clause, FrameC c) ∧ (∀ ps : Parents, FrameP ps) := by
  have case_mk : ∀ (i : Nat) (lits : List Literal) (orig : String) (ps : Parents)
      (rule : String), FrameP ps → FrameC (Clause.mk i lits orig ps rule) := by
    intro i lits orig ps rule ih vis ch hvis hnd
    have h0 : collectC (Clause.mk i lits orig ps rule) (vis, ch)
        = if vis.contains i = true then (vis, ch)
          else ((if orig == ("res") then collectP ps (i :: vis, ch)
                 else (i :: vis, ch)).1,
                (if orig == ("res") then collectP ps (i :: vis, ch)
                 else (i :: vis, ch)).2 ++ [Clause.mk i lits orig ps rule]) := rfl
    cases hcont : vis.contains i with
    | true =>
      have hC : collectC (Clause.mk i lits orig ps rule) (vis, ch) = (vis, ch) := by
        rw [h0, hcont]
        simp
      rw [hC]
      have himem : i ∈ vis := by simpa using hcont
      refine ⟨⟨⟨[], by simp, by simp⟩, fun j hj => hj,
        fun j hj hjn => ⟨hj, hjn⟩, hvis, hnd⟩, fun hni => absurd himem hni⟩
    | false =>
      have hinv : i ∉ vis := by simpa using hcont
      cases horig : orig == ("res") with
      | false =>
        have hC : collectC (Clause.mk i lits orig ps rule) (vis, ch)
            = (i :: vis, ch ++ [Clause.mk i lits orig ps rule]) := by
          rw [h0, hcont, horig]
          simp
        rw [hC]
        refine ⟨⟨⟨[Clause.mk i lits orig ps rule], rfl, ?_⟩, ?_, ?_, ?_, ?_⟩, ?_⟩
        · intro d hd
          rw [List.mem_singleton] at hd
          subst hd
          exact hinv
        · intro j hj
          exact List.mem_cons_of_mem _ hj
        · intro j hj hjn
          rw [List.map_append] at hjn
          have hji : j ≠ i := by
            intro he
            subst he
            exact hjn (List.mem_append.mpr (Or.inr (by simp [Clause.id])))
          constructor
          · rcases List.mem_cons.mp hj with h | h
            · exact absurd h hji
            · exact h
          · intro hjc
            exact hjn (List.mem_append.mpr (Or.inl hjc))
        · intro d hd
          rcases List.mem_append.mp hd with h | h
          · exact List.mem_cons_of_mem _ (hvis d h)
          · rw [List.mem_singleton] at h
            subst h
            exact List.mem_cons_self _ _
        · rw [List.map_append]
          refine List.Nodup.append hnd (by simp) ?_
          intro a ha hb
          simp only [List.map_cons, List.map_nil, List.mem_singleton] at hb
          subst hb
          rcases List.mem_map.mp ha with ⟨d, hd, hdi⟩
          exact hinv (hdi ▸ hvis d hd)
        · intro _
          exact List.mem_append.mpr (Or.inr (List.mem_singleton.mpr rfl))
      | true =>
        have hC : collectC (Clause.mk i lits orig ps rule) (vis, ch)
            = ((collectP ps (i :: vis, ch)).1,
               (collectP ps (i :: vis, ch)).2 ++ [Clause.mk i lits orig ps rule]) := by
          rw [h0, hcont, horig]
          simp
        rw [hC]
        have hvis1 : ∀ d ∈ ch, d.id ∈ i :: vis :=
          fun d hd => List.mem_cons_of_mem _ (hvis d hd)
        obtain ⟨⟨Δ2, hpre2, hids2⟩, hmono2, hpend2, hchv2, hnd2⟩ :=
          ih (i :: vis) ch hvis1 hnd
        refine ⟨⟨⟨Δ2 ++ [Clause.mk i lits orig ps rule], ?_, ?_⟩, ?_, ?_, ?_, ?_⟩, ?_⟩
        · rw [hpre2, List.append_assoc]
        · intro d hd
          rcases List.mem_append.mp hd with h | h
          · exact fun hdv => hids2 d h (List.mem_cons_of_mem _ hdv)
          · rw [List.mem_singleton] at h
            subst h
            exact hinv
        · intro j hj
          exact hmono2 j (List.mem_cons_of_mem _ hj)
        · intro j hj hjn
          rw [List.map_append] at hjn
          have hji : j ≠ i := by
            intro he
            subst he
            exact hjn (List.mem_append.mpr (Or.inr (by simp [Clause.id])))
          have hjn2 : j ∉ (collectP ps (i :: vis, ch)).2.map Clause.id :=
            fun hx => hjn (List.mem_append.mpr (Or.inl hx))
          have h3 := hpend2 j hj hjn2
          rcases List.mem_cons.mp h3.1 with h | h
          · exact absurd h hji
          · exact ⟨h, h3.2⟩
        · intro d hd
          rcases List.mem_append.mp hd with h | h
          · exact hchv2 d h
          · rw [List.mem_singleton] at h
            subst h
            exact hmono2 i (List.mem_cons_self _ _)
        · rw [List.map_append]
          refine List.Nodup.append hnd2 (by simp) ?_
          intro a ha hb
          simp only [List.map_cons, List.map_nil, List.mem_singleton] at hb
          subst hb
          rw [hpre2, List.map_append] at ha
          rcases List.mem_append.mp ha with h | h
          · rcases List.mem_map.mp h with ⟨d, hd, hdi⟩
            exact hinv (hdi ▸ hvis d hd)
          · rcases List.mem_map.mp h with ⟨d, hd, hdi⟩
            exact hids2 d hd (hdi ▸ List.mem_cons_self _ _)
        · intro _
          exact List.mem_append.mpr (Or.inr (List.mem_singleton.mpr rfl))
  have case_none : FrameP Parents.none := by
    intro vis ch hvis hnd
    have hC : collectP Parents.none (vis, ch) = (vis, ch) := rfl
    rw [hC]
    exact ⟨⟨[], by simp, by simp⟩, fun j hj => hj,
      fun j hj hjn => ⟨hj, hjn⟩, hvis, hnd⟩
  have case_pair : ∀ p1 p2 : Clause, FrameC p1 → FrameC p2 →
      FrameP (Parents.pair p1 p2) := by
    intro p1 p2 ih1 ih2 vis ch hvis hnd
    have hC : collectP (Parents.pair p1 p2) (vis, ch)
        = collectC p2 (collectC p1 (vis, ch)) := rfl
    rw [hC]
    obtain ⟨⟨ΔA, hpreA, hidsA⟩, hmonoA, hpendA, hchvA, hndA⟩ :=
      (ih1 vis ch hvis hnd).1
    have hB0 := (ih2 (collectC p1 (vis, ch)).1 (collectC p1 (vis, ch)).2 hchvA hndA).1
    simp only [Prod.mk.eta] at hB0
    obtain ⟨⟨ΔB, hpreB, hidsB⟩, hmonoB, hpendB, hchvB, hndB⟩ := hB0
    refine ⟨⟨ΔA ++ ΔB, ?_, ?_⟩, ?_, ?_, ?_, ?_⟩
    · rw [hpreB, hpreA, List.append_assoc]
    · intro d hd
      rcases List.mem_append.mp hd with h | h
      · exact hidsA d h
      · exact fun hdv => hidsB d h (hmonoA _ hdv)
    · exact fun j hj => hmonoB j (hmonoA j hj)
    · intro j hj hjn
      have h3 := hpendB j hj hjn
      exact hpendA j h3.1 h3.2
    · exact hchvB
    · exact hndB
  exact ⟨@Clause.rec FrameC FrameP case_mk case_none case_pair,
         @Parents.rec FrameC FrameP case_mk case_none case_pair⟩
/-- The ordering invariant holds for every `collect` call below a
well-formed root: the chain stays inside the reachable set and stays
ordered with parents before children. -/
theorem collect_ordered : (∀ c : Clause, OrdC c) ∧ (∀ ps : Parents, OrdP ps) := by
  have case_mk : ∀ (i : Nat) (lits : List Literal) (orig : String) (ps : Parents)
      (rule : String), OrdP ps → OrdC (Clause.mk i lits orig ps rule) := by
    intro i lits orig ps rule ih root vis ch hwf hmem hchm hchv hnd hpend hord
    have h0 : collectC (Clause.mk i lits orig ps rule) (vis, ch)
        = if vis.contains i = true then (vis, ch)
          else ((if orig == ("res") then collectP ps (i :: vis, ch)
                 else (i :: vis, ch)).1,
                (if orig == ("res") then collectP ps (i :: vis, ch)
                 else (i :: vis, ch)).2 ++ [Clause.mk i lits orig ps rule]) := rfl
    cases hcont : vis.contains i with
    | true =>
      have hC : collectC (Clause.mk i lits orig ps rule) (vis, ch) = (vis, ch) := by
        rw [h0, hcont]
        simp
      rw [hC]
      exact ⟨hchm, hord⟩
    | false =>
      have hinv : i ∉ vis := by simpa using hcont
      cases horig : orig == ("res") with
      | false =>
        have hC : collectC (Clause.mk i lits orig ps rule) (vis, ch)
            = (i :: vis, ch ++ [Clause.mk i lits orig ps rule]) := by
          rw [h0, hcont, horig]
          simp
        rw [hC]
        constructor
        · intro d hd
          rcases List.mem_append.mp hd with h | h
          · exact hchm d h
          · rw [List.mem_singleton] at h
            subst h
            exact hmem
        · refine chainOrdered_append ch _ hord ?_
          intro hres
          rw [Clause.origin] at hres
          rw [hres] at horig
          simp at horig
      | true =>
        have hC : collectC (Clause.mk i lits orig ps rule) (vis, ch)
            = ((collectP ps (i :: vis, ch)).1,
               (collectP ps (i :: vis, ch)).2 ++ [Clause.mk i lits orig ps rule]) := by
          rw [h0, hcont, horig]
          simp
        rw [hC]
        have hsub1 : ∀ d ∈ subP ps, d ∈ subC root := by
          intro d hd
          refine subC_trans root (Clause.mk i lits orig ps rule) hmem d ?_
          rw [subC]
          exact List.mem_cons_of_mem _ hd
        have hchv1 : ∀ d ∈ ch, d.id ∈ i :: vis :=
          fun d hd => List.mem_cons_of_mem _ (hchv d hd)
        have hpend1 : ∀ j ∈ i :: vis, j ∉ ch.map Clause.id →
            ∀ d ∈ subP ps, j ≠ d.id := by
          intro j hj hjn d hd
          rcases List.mem_cons.mp hj with h | h
          · have hlt : d.id < i :=
              subP_id_lt root (Clause.mk i lits orig ps rule) hwf hmem d hd
            intro he
            omega
          · refine hpend j h hjn d ?_
            rw [subC]
            exact List.mem_cons_of_mem _ hd
        obtain ⟨hmem2, hord2, hpq2⟩ :=
          ih root (i :: vis) ch hwf hsub1 hchm hchv1 hnd hpend1 hord
        constructor
        · intro d hd
          rcases List.mem_append.mp hd with h | h
          · exact hmem2 d h
          · rw [List.mem_singleton] at h
            subst h
            exact hmem
        · exact chainOrdered_append _ _ hord2 (fun _ p q hpq => hpq2 p q hpq)
  have case_none : OrdP Parents.none := by
    intro root vis ch hwf hsub hchm hchv hnd hpend hord
    have hC : collectP Parents.none (vis, ch) = (vis, ch) := rfl
    rw [hC]
    exact ⟨hchm, hord, fun p q h => Parents.noConfusion h⟩
  have case_pair : ∀ p1 p2 : Clause, OrdC p1 → OrdC p2 →
      OrdP (Parents.pair p1 p2) := by
    intro p1 p2 ih1 ih2 root vis ch hwf hsub hchm hchv hnd hpend hord
    have hC : collectP (Parents.pair p1 p2) (vis, ch)
        = collectC p2 (collectC p1 (vis, ch)) := rfl
    rw [hC]
    have hp1r : p1 ∈ subC root := by
      refine hsub p1 ?_
      rw [subP]
      exact List.mem_append.mpr (Or.inl (subC_self p1))
    have hp2r : p2 ∈ subC root := by
      refine hsub p2 ?_
      rw [subP]
      exact List.mem_append.mpr (Or.inr (subC_self p2))
    obtain ⟨⟨ΔA, hpreA, hidsA⟩, hmonoA, hpendFA, hchvA, hndA⟩ :=
      (collect_frame.1 p1 vis ch hchv hnd).1
    have hselfA := (collect_frame.1 p1 vis ch hchv hnd).2
    have hpendA : ∀ j ∈ vis, j ∉ ch.map Clause.id → ∀ d ∈ subC p1, j ≠ d.id := by
      intro j hj hjn d hd
      refine hpend j hj hjn d ?_
      rw [subP]
      exact List.mem_append.mpr (Or.inl hd)
    obtain ⟨hmemA, hordA⟩ :=
      ih1 root vis ch hwf hp1r hchm hchv hnd hpendA hord
    have hpendA2 : ∀ j ∈ (collectC p1 (vis, ch)).1,
        j ∉ (collectC p1 (vis, ch)).2.map Clause.id → ∀ d ∈ subC p2, j ≠ d.id := by
      intro j hj hjn d hd
      have h3 := hpendFA j hj hjn
      refine hpend j h3.1 h3.2 d ?_
      rw [subP]
      exact List.mem_append.mpr (Or.inr hd)
    have hOB := ih2 root (collectC p1 (vis, ch)).1 (collectC p1 (vis, ch)).2
      hwf hp2r hmemA hchvA hndA hpendA2 hordA
    simp only [Prod.mk.eta] at hOB
    obtain ⟨hmemB, hordB⟩ := hOB
    have hFB := collect_frame.1 p2 (collectC p1 (vis, ch)).1
      (collectC p1 (vis, ch)).2 hchvA hndA
    simp only [Prod.mk.eta] at hFB
    obtain ⟨⟨⟨ΔB, hpreB, hidsB⟩, hmonoB, hpendFB, hchvB, hndB⟩, hselfB⟩ := hFB
    refine ⟨hmemB, hordB, ?_⟩
    intro p q hpq
    cases hpq
    constructor
    · by_cases h1 : p1.id ∈ vis
      · by_cases h1c : p1.id ∈ ch.map Clause.id
        · rcases List.mem_map.mp h1c with ⟨d, hd, hdi⟩
          have hde : d = p1 := hwf.1 d (hchm d hd) p1 hp1r hdi
          rw [hde] at hd
          rw [hpreB, hpreA]
          exact List.mem_append.mpr (Or.inl (List.mem_append.mpr (Or.inl hd)))
        · refine absurd rfl (hpend p1.id h1 h1c p1 ?_)
          rw [subP]
          exact List.mem_append.mpr (Or.inl (subC_self p1))
      · have hin := hselfA h1
        rw [hpreB]
        exact List.mem_append.mpr (Or.inl hin)
    · by_cases h2 : p2.id ∈ (collectC p1 (vis, ch)).1
      · by_cases h2c : p2.id ∈ (collectC p1 (vis, ch)).2.map Clause.id
        · rcases List.mem_map.mp h2c with ⟨d, hd, hdi⟩
          have hde : d = p2 := hwf.1 d (hmemA d hd) p2 hp2r hdi
          rw [hde] at hd
          rw [hpreB]
          exact List.mem_append.mpr (Or.inl hd)
        · have h3 := hpendFA p2.id h2 h2c
          refine absurd rfl (hpend p2.id h3.1 h3.2 p2 ?_)
          rw [subP]
          exact List.mem_append.mpr (Or.inr (subC_self p2))
      · exact hselfB h2
  exact ⟨@Clause.rec OrdC OrdP case_mk case_none case_pair,
         @Parents.rec OrdC OrdP case_mk case_none case_pair⟩


/-- C4: for every clause `c` on which `buildProofChain` is called, the
returned list contains each clause id at most once; and whenever the
parent DAG under `c` is well formed — reachable clauses never share an
id and parents have strictly smaller ids than their child, which holds
for every clause the engine allocates — every clause of origin `res`
appears in the list at a strictly later position than each of its two
parents. -/
theorem claim_buildProofChain_ordered :
    ∀ c : Clause, ((buildProofChain c).map Clause.id).Nodup ∧
      (WfDag c → ChainOrdered (buildProofChain c)) := by
  intro c
  constructor
  · have h := (collect_frame.1 c [] [] (by intro d hd; cases hd) (by simp)).1
    exact h.2.2.2.2
  · intro hwf
    have h := collect_ordered.1 c c [] [] hwf (subC_self c)
      (by intro d hd; cases hd) (by intro d hd; cases hd) (by simp)
      (by intro j hj; cases hj)
      (by intro k d hk; simp at hk)
    exact h.2

/-- Witness for C4: a concrete resolvent with two initial parents; its
well-formedness hypothesis is discharged by enumeration and the
resulting chain is id-duplicate-free, ordered, and equals `[1, 2, 3]`
— both parents before the resolvent. -/
theorem claim_buildProofChain_ordered_witness :
    ((buildProofChain (Clause.mk 3 [] ("res")
        (Parents.pair (Clause.mk 1 [] ("init") Parents.none (""))
          (Clause.mk 2 [] ("init") Parents.none (""))) (""))).map Clause.id).Nodup ∧
    ChainOrdered (buildProofChain (Clause.mk 3 [] ("res")
        (Parents.pair (Clause.mk 1 [] ("init") Parents.none (""))
          (Clause.mk 2 [] ("init") Parents.none (""))) (""))) ∧
    (buildProofChain (Clause.mk 3 [] ("res")
        (Parents.pair (Clause.mk 1 [] ("init") Parents.none (""))
          (Clause.mk 2 [] ("init") Parents.none (""))) (""))).map Clause.id
      = [1, 2, 3] := by
  refine ⟨(claim_buildProofChain_ordered _).1,
    (claim_buildProofChain_ordered _).2 ?_, rfl⟩
  constructor
  · intro d hd e he hde
    simp only [subC, subP, List.cons_append, List.nil_append, List.mem_cons,
      List.not_mem_nil, or_false] at hd he
    rcases hd with rfl | rfl | rfl <;> rcases he with rfl | rfl | rfl <;>
      first | rfl | (simp [Clause.id] at hde)
  · intro d hd p q hpq
    simp only [subC, subP, List.cons_append, List.nil_append, List.mem_cons,
      List.not_mem_nil, or_false] at hd
    rcases hd with rfl | rfl | rfl
    · rw [Clause.parentsOf] at hpq
      cases hpq
      exact ⟨by decide, by decide⟩
    · rw [Clause.parentsOf] at hpq
      exact Parents.noConfusion hpq
    · rw [Clause.parentsOf] at hpq
      exact Parents.noConfusion hpq

end Resolution
